import Mathlib

/-!
The loader `memc_load` (hw12): record parser, upload with retry, line loop of
`processFile`, its goroutines, and the error rate verdict of `main`.

A shallow embedding of `src/hw12/memc_load.go`.

Go strings are modelled as `List Char` (valid UTF-8 text).  The Go standard
library functions the program calls (`strings.TrimSpace`, `strings.Split`,
`strconv.Atoi`, the conversion `uint32(int)`) are modelled from their documented
behaviour on a 64-bit platform (`int` is 64 bits wide).  `strconv.ParseFloat`
and `proto.Marshal` are external collaborators and are taken as parameters;
where a statement needs the values `ParseFloat` returns, its documented
behaviour on plain decimal numerals (the nearest `float64`) is assumed of the
parameter.  A file is given by its lines, and the limit of the default
`bufio.Scanner` on the length of a line is part of the line loop.
-/

namespace MemcLoad

/-! ## Go standard library helpers -/

/-- Go `unicode.IsSpace`: the Latin-1 spaces `\t \n \v \f \r`, space, U+0085,
U+00A0, and the code points with the Unicode White_Space property. -/
def isSpace (c : Char) : Bool :=
  let n := c.toNat
  (9 ≤ n && n ≤ 13) || n == 0x20 || n == 0x85 || n == 0xA0 || n == 0x1680 ||
    (0x2000 ≤ n && n ≤ 0x200A) || n == 0x2028 || n == 0x2029 || n == 0x202F ||
    n == 0x205F || n == 0x3000

/-- Go `strings.TrimSpace`: removes leading and trailing white space. -/
def trimSpace (s : List Char) : List Char :=
  (((s.dropWhile isSpace).reverse).dropWhile isSpace).reverse

/-- Go `strings.Split(s, sep)` for a one-character separator: the pieces of
`s` between occurrences of `sep`; there is always at least one piece. -/
def split (sep : Char) : List Char → List (List Char)
  | [] => [[]]
  | c :: cs =>
    if c = sep then [] :: split sep cs
    else
      match split sep cs with
      | [] => [[c]]
      | p :: ps => (c :: p) :: ps

/-- The value of a decimal digit, `none` for any other character
(`ch - '0' > 9` in `strconv`). -/
def digitVal (c : Char) : Option Nat :=
  if 48 ≤ c.toNat ∧ c.toNat ≤ 57 then some (c.toNat - 48) else none

/-- The digit loop of `strconv.ParseUint(s, 10, 64)`: the accumulated value,
`none` on a character that is not a decimal digit. -/
def parseDigits : List Char → Nat → Option Nat
  | [], n => some n
  | c :: cs, n =>
    match digitVal c with
    | none => none
    | some d => parseDigits cs (n * 10 + d)

/-- Go `strconv.ParseUint(s, 10, 64)`: `none` stands for a syntax error
(empty input, a non-digit) or a range error (value of `2^64` or more). -/
def parseUint (s : List Char) : Option Nat :=
  if s = [] then none
  else
    match parseDigits s 0 with
    | none => none
    | some n => if n < 2 ^ 64 then some n else none

/-- Go `strconv.Atoi(s)`, documented as `ParseInt(s, 10, 0)` with a 64-bit
`int`: an optional sign followed by decimal digits, in the range
`[-2^63, 2^63 - 1]`.  `none` stands for a non-nil `err`. -/
def atoi (s : List Char) : Option Int :=
  match s with
  | [] => none
  | c :: cs =>
    let neg := decide (c = '-')
    let body := if c = '+' ∨ c = '-' then cs else c :: cs
    match parseUint body with
    | none => none
    | some un =>
      if !neg && decide (2 ^ 63 ≤ un) then none
      else if neg && decide (2 ^ 63 < un) then none
      else some (if neg then -(un : Int) else (un : Int))

/-- Go conversion `uint32(x)` of an `int`: the value modulo `2^32`. -/
def toUint32 (x : Int) : Nat := (x % (2 ^ 32 : Int)).toNat

/-! ## Data model -/

/-- The struct `AppsInstalled`; `F` is the type of `float64` values. -/
structure AppsInstalled (F : Type) where
  devType : List Char
  devId : List Char
  lat : F
  lon : F
  apps : List Nat
deriving DecidableEq, Repr

/-- The errors `parseAppsInstalled` returns. -/
inductive ParseError where
  /-- "Quantity of args in line is not valid." -/
  | badArgs
  /-- "Device Type or Device Id is not defined." -/
  | noIdentity
  /-- The error of `strconv.ParseFloat`, propagated. -/
  | badFloat
deriving DecidableEq, Repr

/-- The struct `Statistic` (the file name is not modelled). -/
structure Statistic where
  processed : Nat
  errors : Nat
deriving DecidableEq, Repr

/-- The struct `MemcacheItem`; `V` is the type of serialized payloads. -/
structure MemcacheItem (V : Type) where
  key : List Char
  value : V
deriving DecidableEq, Repr

deriving instance DecidableEq for Except

/-! ## Record parser -/

/-- The loop over `rawApps` in `parseAppsInstalled`: a token on which `Atoi`
fails is skipped, any other is converted with `uint32` and appended. -/
def parseApps (rawApps : List (List Char)) : List Nat :=
  rawApps.foldl
    (fun apps appStr =>
      match atoi appStr with
      | none => apps
      | some app => apps ++ [toUint32 app])
    []

/-- The function `parseAppsInstalled`; `parseFloat s` is
`strconv.ParseFloat(s, 64)`, with `none` for a non-nil `err`. -/
def parseAppsInstalled {F : Type} (parseFloat : List Char → Option F)
    (line : List Char) : Except ParseError (AppsInstalled F) :=
  match split '\t' (trimSpace line) with
  | [p0, p1, p2, p3, p4] =>
    let devType := trimSpace p0
    let devId := trimSpace p1
    if devType = [] ∨ devId = [] then .error .noIdentity
    else
      match parseFloat p2 with
      | none => .error .badFloat
      | some lat =>
        match parseFloat p3 with
        | none => .error .badFloat
        | some lon =>
          .ok { devType := devType, devId := devId, lat := lat, lon := lon,
                apps := parseApps (split ',' p4) }
  | _ => .error .badArgs

/-- A plain decimal numeral `[+-]digits[.digits]` read exactly, as the pair of
its digits read as an integer and the number of fraction digits.  It stands in
for `strconv.ParseFloat` when the definitions are run on sample lines. -/
def decimalFixed (s : List Char) : Option (Int × Nat) :=
  match split '.' s with
  | [w] => (atoi w).map (fun n => (n, 0))
  | [w, f] =>
    if f = [] then none
    else
      match atoi w, parseDigits f 0 with
      | some n, some m =>
        some (if n < 0 ∨ w.head? = some '-' then n * 10 ^ f.length - m
              else n * 10 ^ f.length + m, f.length)
      | _, _ => none
  | _ => none

/-! ## Upload with retry -/

/-- What one call of `setItem` did: whether it returned a non-nil error, how
many times `connection.Set` was called, and the arguments of the successive
`time.Sleep` calls, in milliseconds. -/
structure SetTrace where
  failed : Bool
  calls : Nat
  sleeps : List Nat
deriving DecidableEq, Repr

/-- The `for` loop of `setItem`.  `resp k` tells whether the call number `k`
of `connection.Set` for this item succeeds (`true`, a nil error).  One
iteration: sleep `delay`; then, when `err != nil && tries > 0`, call `Set`
again, decrement `tries` and double `delay`; otherwise return `err`. -/
def setItemLoop (resp : Nat → Bool) :
    (tries : Nat) → (delay : Nat) → (err : Bool) → (calls : Nat) → (sleeps : List Nat) → SetTrace
  | 0, delay, err, calls, sleeps =>
    { failed := err, calls := calls, sleeps := sleeps ++ [delay] }
  | tries + 1, delay, err, calls, sleeps =>
    if err then
      setItemLoop resp tries (delay * 2) (!resp calls) (calls + 1) (sleeps ++ [delay])
    else
      { failed := err, calls := calls, sleeps := sleeps ++ [delay] }

/-- The method `Memcache.setItem` with `tries := 3`, `delay := 500`,
`backoff := 2`: a first call of `Set`, and the loop when it fails. -/
def setItem (resp : Nat → Bool) : SetTrace :=
  if !resp 0 then setItemLoop resp 3 500 true 1 []
  else { failed := false, calls := 1, sleeps := [] }

/-- The `case item := <-uploadQueue` branch of `MemcacheWorker`: the worker's
statistic after one item. -/
def workerItem (dryRun : Bool) (resp : Nat → Bool) (stat : Statistic) : Statistic :=
  if dryRun then { stat with processed := stat.processed + 1 }
  else if (setItem resp).failed then { stat with errors := stat.errors + 1 }
  else { stat with processed := stat.processed + 1 }

/-! ## Line loop of `processFile` -/

/-- The keys of `memcPool` built in `main`. -/
def memcPoolKeys : List (List Char) :=
  ["idfa".toList, "gaid".toList, "adid".toList, "dvid".toList]

/-- The function `NewMemcacheItem`; `marshal lat lon apps` is `proto.Marshal`
of the `UserApps` message. -/
def NewMemcacheItem {F V : Type} (marshal : F → F → List Nat → V)
    (appsInstalled : AppsInstalled F) : MemcacheItem V :=
  { key := appsInstalled.devType ++ ':' :: appsInstalled.devId,
    value := marshal appsInstalled.lat appsInstalled.lon appsInstalled.apps }

/-- The state of the line loop: `stat.errors` of the loader and, in order, the
items sent so far, each with the key of the upload queue it was sent on. -/
structure LoaderState (V : Type) where
  errors : Nat
  sent : List (List Char × MemcacheItem V)

/-- One iteration of `for scanner.Scan()` in `processFile`, for a pool with
the given keys. -/
def lineStep {F V : Type} (parseFloat : List Char → Option F)
    (marshal : F → F → List Nat → V) (pool : List (List Char))
    (st : LoaderState V) (text : List Char) : LoaderState V :=
  let line := trimSpace text
  if line = [] then st
  else
    match parseAppsInstalled parseFloat line with
    | .error _ => { st with errors := st.errors + 1 }
    | .ok appsInstalled =>
      if appsInstalled.devType ∈ pool then
        { st with sent := st.sent ++ [(appsInstalled.devType, NewMemcacheItem marshal appsInstalled)] }
      else { st with errors := st.errors + 1 }

/-- The constant `bufio.MaxScanTokenSize`, the buffer limit of a default
`bufio.Scanner`. -/
def maxScanTokenSize : Nat := 65536

/-- The length of a string in bytes (Go `len`). -/
def byteLen (s : List Char) : Nat := (s.map Char.utf8Size).sum

/-- The lines `scanner.Scan()` hands to the loop `for scanner.Scan()`, for a
file given by its lines, each ended by a newline: a line and its newline have
to fit the scanner's buffer; at the first line that does not, `Scan` returns
false (with `ErrTooLong`, which `processFile` never reads) and no later line is
scanned. -/
def scanLines (lines : List (List Char)) : List (List Char) :=
  lines.takeWhile (fun text => decide (byteLen text + 1 ≤ maxScanTokenSize))

/-- The whole line loop of `processFile`, from `stat.errors = 0`, on a file
given by its lines. -/
def lineLoop {F V : Type} (parseFloat : List Char → Option F)
    (marshal : F → F → List Nat → V) (pool : List (List Char))
    (lines : List (List Char)) : LoaderState V :=
  (scanLines lines).foldl (lineStep parseFloat marshal pool) { errors := 0, sent := [] }

/-! ## Goroutines of `processFile` -/

/-- A configuration of one `processFile` call with its `MemcacheWorker`
goroutines.  Workers and queues are named by the key of `memcPool` they were
started for. -/
structure FileState (V : Type) where
  /-- Lines the scanner has not returned yet. -/
  lines : List (List Char)
  /-- The loader's `stat`. -/
  stat : Statistic
  /-- Whether `close(mcWorkerExit)` has happened. -/
  exitClosed : Bool
  /-- The content of each `uploadQueues[devType]`, oldest first. -/
  queue : List Char → List (MemcacheItem V)
  /-- The `stat` each worker points to. -/
  wstat : List Char → Statistic
  /-- How many `Set` calls each worker has made. -/
  wcalls : List Char → Nat
  /-- The content of `mcResultQueue`, oldest first: each entry is the pointer
  a worker sent, named by that worker. -/
  results : List (List Char)
  /-- The counter `i` of the loop that receives from `mcResultQueue`. -/
  collected : Nat

/-- What the scheduler lets run next: the loader goroutine up to its next
channel operation, or one branch of the `select` of one worker. -/
inductive Action where
  /-- The goroutine running `processFile`. -/
  | loader
  /-- The branch `case item := <-uploadQueue` of a worker. -/
  | receive (worker : List Char)
  /-- The branch `case <-exit` of a worker. -/
  | report (worker : List Char)
deriving DecidableEq, Repr

/-- The parameters of a `processFile` call: the float parser, the serializer,
the keys of `memcPool`, `bufferSize` (at least 1), `dryRun`, and the store:
`store w k` tells whether call number `k` of `Set` on the connection of
worker `w` succeeds. -/
structure FileConfig (F V : Type) where
  parseFloat : List Char → Option F
  marshal : F → F → List Nat → V
  pool : List (List Char)
  bufferSize : Nat
  dryRun : Bool
  store : List Char → Nat → Bool

/-- The configuration after the workers are started. -/
def FileState.init {V : Type} (lines : List (List Char)) : FileState V :=
  { lines := lines, stat := { processed := 0, errors := 0 }, exitClosed := false,
    queue := fun _ => [], wstat := fun _ => { processed := 0, errors := 0 },
    wcalls := fun _ => 0, results := [], collected := 0 }

/-- One scheduling step; `none` when the chosen goroutine cannot proceed
(a send on a full channel, a receive on an empty one, a `select` branch that
is not ready, or `processFile` has returned).

* `loader`, before the close: handle the next line as `lineStep` does, the
  send `queue <- item` needing room in the queue; with no line left,
  `close(mcWorkerExit)`.
* `loader`, after the close: receive one pointer from `mcResultQueue` and add
  the statistic it points to, while `i < len(uploadQueues)`.
* `receive w`: worker `w` takes the oldest item of its queue and handles it.
* `report w`: with the exit channel closed, worker `w` sends its `stat`
  pointer on `mcResultQueue` (capacity `len(memcPool)`). -/
def step {F V : Type} (cfg : FileConfig F V) (s : FileState V) : Action → Option (FileState V)
  | .loader =>
    if !s.exitClosed then
      match s.lines with
      | [] => some { s with exitClosed := true }
      | text :: rest =>
        let st := lineStep cfg.parseFloat cfg.marshal cfg.pool
          { errors := s.stat.errors, sent := [] } text
        match st.sent with
        | [] => some { s with lines := rest, stat := { s.stat with errors := st.errors } }
        | (devType, item) :: _ =>
          if (s.queue devType).length < cfg.bufferSize then
            some { s with lines := rest,
                          queue := Function.update s.queue devType (s.queue devType ++ [item]) }
          else none
    else if s.collected < cfg.pool.length then
      match s.results with
      | [] => none
      | w :: rest =>
        some { s with results := rest, collected := s.collected + 1,
                      stat := { processed := s.stat.processed + (s.wstat w).processed,
                                errors := s.stat.errors + (s.wstat w).errors } }
    else none
  | .receive w =>
    if w ∈ cfg.pool then
      match s.queue w with
      | [] => none
      | _ :: rest =>
        let resp := fun k => cfg.store w (s.wcalls w + k)
        some { s with queue := Function.update s.queue w rest,
                      wstat := Function.update s.wstat w (workerItem cfg.dryRun resp (s.wstat w)),
                      wcalls := Function.update s.wcalls w
                        (s.wcalls w + if cfg.dryRun then 0 else (setItem resp).calls) }
    else none
  | .report w =>
    if w ∈ cfg.pool ∧ s.exitClosed = true ∧ s.results.length < cfg.pool.length then
      some { s with results := s.results ++ [w] }
    else none

/-- A schedule run from a configuration. -/
def run {F V : Type} (cfg : FileConfig F V) (s : FileState V) : List Action → Option (FileState V)
  | [] => some s
  | a :: as =>
    match step cfg s a with
    | none => none
    | some s' => run cfg s' as

/-- The value `processFile` returns, once its last loop is over. -/
def returned {F V : Type} (cfg : FileConfig F V) (s : FileState V) : Option Statistic :=
  if s.exitClosed = true ∧ s.collected = cfg.pool.length then some s.stat else none

/-- The number of lines that are not blank after trimming. -/
def nonBlank (lines : List (List Char)) : Nat :=
  (lines.filter (fun text => decide (trimSpace text ≠ []))).length

/-! ## Error rate verdict of `main` -/

/-- Rounding of the fraction `a / b` to the nearest integer, ties to even. -/
def roundHalfEven (a b : Nat) : Nat :=
  let q := a / b
  let r := a % b
  if 2 * r < b then q else if b < 2 * r then q + 1 else if q % 2 = 0 then q else q + 1

/-- The binary logarithm rounded down, by repeated halving (`fuel` bounds the
number of halvings). -/
def log2Fuel : Nat → Nat → Nat
  | 0, _ => 0
  | fuel + 1, n => if 2 ≤ n then log2Fuel fuel (n / 2) + 1 else 0

/-- The position of the leading bit of `n`: `2 ^ ilog2 n ≤ n < 2 ^ (ilog2 n + 1)`
for `n > 0`. -/
def ilog2 (n : Nat) : Nat := log2Fuel n n

/-- Go conversion `float32(n)` of a non-negative `int`: the nearest value
with a 24-bit significand, ties to even.  The result is an integer. -/
def float32OfNat (n : Nat) : Nat :=
  let t := ilog2 n - 23
  roundHalfEven n (2 ^ t) * 2 ^ t

/-- The `float32` nearest to `a / b` (ties to even), for `b > 0`, as a
fraction `(numerator, denominator)`; exponent range limits never apply to
quotients of 64-bit counts. -/
def float32Div (a b : Nat) : Nat × Nat :=
  if a = 0 then (0, 1)
  else
    let k := ilog2 b + 1
    let l := ilog2 (a * 2 ^ k / b)
    if l ≤ 23 + k then (roundHalfEven (a * 2 ^ (23 + k - l)) b, 2 ^ (23 + k - l))
    else (roundHalfEven a (b * 2 ^ (l - (23 + k))) * 2 ^ (l - (23 + k)), 1)

/-- The constant `NormalErrRate = 0.01` converted to `float32`. -/
def NormalErrRate : Nat × Nat := float32Div 1 100

/-- What `main` logs about the error rate of a file. -/
inductive Verdict where
  /-- "Acceptable error rate". -/
  | acceptable
  /-- "High error rate ... Failed load". -/
  | failedLoad
deriving DecidableEq, Repr

/-- The error rate check of `main`: nothing when `processed` is 0, otherwise
`float32(errors) / float32(processed) < NormalErrRate`. -/
def verdict (result : Statistic) : Option Verdict :=
  if result.processed > 0 then
    let errRate := float32Div (float32OfNat result.errors) (float32OfNat result.processed)
    if errRate.1 * NormalErrRate.2 < NormalErrRate.1 * errRate.2 then some .acceptable
    else some .failedLoad
  else none

/-! ## Specification-side notions and samples -/

/-- A character that is a decimal digit. -/
def isDigit (c : Char) : Prop := 48 ≤ c.toNat ∧ c.toNat ≤ 57

instance : DecidablePred isDigit := fun c =>
  inferInstanceAs (Decidable (48 ≤ c.toNat ∧ c.toNat ≤ 57))

/-- A `float64` value: a finite value `± num / den`, an infinity, or NaN. -/
inductive F64 where
  /-- The finite value `num / den`, negated when `neg` is set. -/
  | finite (neg : Bool) (num den : Nat)
  /-- An infinity. -/
  | inf (neg : Bool)
  /-- Not a number. -/
  | nan
deriving DecidableEq, Repr

/-- The `float64` nearest to `a / b` (for `b > 0`), ties to even, as a
fraction `(numerator, denominator)`: a 53-bit significand, a quantum of at
least `2 ^ (-1074)` (subnormal values), and `none` when the rounded value is
`2 ^ 1024` or more (out of range). -/
def nearestFloat64 (a b : Nat) : Option (Nat × Nat) :=
  if a = 0 then some (0, 1)
  else
    let k := ilog2 b + 1
    let l := ilog2 (a * 2 ^ k / b)
    if l ≤ k + 52 then
      let s := min (k + 52 - l) 1074
      some (roundHalfEven (a * 2 ^ s) b, 2 ^ s)
    else
      let t := l - (k + 52)
      let m := roundHalfEven a (b * 2 ^ t)
      if m * 2 ^ t < 2 ^ 1024 then some (m * 2 ^ t, 1) else none

/-- The number a plain decimal numeral writes: an optional sign, digits, and
optionally a point and digits, with at least one digit.  The result is the
sign and the value as a fraction `(negative, numerator, denominator)`; `none`
for a string that is not such a numeral. -/
def decimalNumeral (s : List Char) : Option (Bool × Nat × Nat) :=
  let neg := decide (s.head? = some '-')
  let body := if s.head? = some '+' ∨ s.head? = some '-' then s.tail else s
  match split '.' body with
  | [w] => if w = [] then none else (parseDigits w 0).map (fun m => (neg, m, 1))
  | [w, f] =>
    if w = [] ∧ f = [] then none
    else (parseDigits (w ++ f) 0).map (fun m => (neg, m, 10 ^ f.length))
  | _ => none

/-- The documented result of `strconv.ParseFloat(s, 64)` on a plain decimal
numeral: the nearest `float64`, and an error (`none`) when it is out of
range.  Strings that are not plain decimal numerals give `none` here; what
`ParseFloat` does with them (exponents, hexadecimal, `inf`, `nan`) is left
open. -/
def parseFloatDecimal (s : List Char) : Option F64 :=
  match decimalNumeral s with
  | none => none
  | some (neg, a, b) => (nearestFloat64 a b).map (fun v => F64.finite neg v.1 v.2)

/-- A float parser that follows the documented behaviour of
`strconv.ParseFloat` on plain decimal numerals in range. -/
def RoundsDecimals (pf : List Char → Option F64) : Prop :=
  ∀ s v, parseFloatDecimal s = some v → pf s = some v

/-- The number a string of decimal digits writes, leading zeros allowed. -/
def numeralValue (ds : List Char) : Nat :=
  Nat.ofDigits 10 (ds.reverse.map (fun c => c.toNat - 48))

/-- The text of an integer numeral: its digits, after a `+` when `plus` is
set. -/
def numeralText (t : Bool × List Char) : List Char :=
  if t.1 then '+' :: t.2 else t.2

/-- The item a line gives rise to, with the key of its queue, in the words of
the specification: the line parses and its device type is a key of the pool;
`none` for every other line. -/
def enqueued {F V : Type} (pf : List Char → Option F) (marshal : F → F → List Nat → V)
    (pool : List (List Char)) (text : List Char) : Option (List Char × MemcacheItem V) :=
  match parseAppsInstalled pf (trimSpace text) with
  | .ok r => if r.devType ∈ pool then some (r.devType, NewMemcacheItem marshal r) else none
  | .error _ => none

/-- A line counted as an error by the loader: not blank, and giving no item. -/
def rejected {F V : Type} (pf : List Char → Option F) (marshal : F → F → List Nat → V)
    (pool : List (List Char)) (text : List Char) : Bool :=
  decide (trimSpace text ≠ []) && (enqueued pf marshal pool text).isNone

/-- A `processFile` call with the pool of `main`, the default buffer size, no
dry-run, and a store that accepts every write. -/
def sampleConfig : FileConfig (Int × Nat) (Int × Nat × Int × Nat × List Nat) :=
  { parseFloat := decimalFixed,
    marshal := fun lat lon apps => (lat.1, lat.2, lon.1, lon.2, apps),
    pool := memcPoolKeys, bufferSize := 1000, dryRun := false, store := fun _ _ => true }

/-- A file of two lines: a valid `idfa` line with the apps 1, 2, 3 and a line of
device type `unknown_type`. -/
def sampleFile : List (List Char) :=
  ["idfa\tabc\t55.55\t42.42\t1,2,3".toList, "unknown_type\tabc\t55.55\t42.42\t1,2,3".toList]

/-- A file of three lines: `x`, a line of 70000 spaces, and `y`. -/
def longFile : List (List Char) :=
  ["x".toList, List.replicate 70000 ' ', "y".toList]

/-- A schedule in which every worker handles its items before it reports, and
reports once. -/
def orderlySchedule : List Action :=
  [.loader, .loader, .loader, .receive "idfa".toList,
   .report "idfa".toList, .report "gaid".toList, .report "adid".toList, .report "dvid".toList,
   .loader, .loader, .loader, .loader]

/-- A schedule in which the `select` of the `idfa` worker takes the exit branch
while its queue still holds the item. -/
def earlyReportSchedule : List Action :=
  [.loader, .loader, .loader,
   .report "idfa".toList, .report "gaid".toList, .report "adid".toList, .report "dvid".toList,
   .loader, .loader, .loader, .loader]

/-- A schedule in which the `idfa` worker handles its item, the `gaid` worker
takes its exit branch twice, and the report of the `idfa` worker finds
`mcResultQueue` read out. -/
def doubleReportSchedule : List Action :=
  [.loader, .loader, .loader, .receive "idfa".toList,
   .report "gaid".toList, .report "gaid".toList, .report "adid".toList, .report "dvid".toList,
   .loader, .loader, .loader, .loader]

/-! ## Lemmas on the string helpers -/

theorem split_ne_nil (sep : Char) (s : List Char) : split sep s ≠ [] := by
  cases s with
  | nil => simp [split]
  | cons c cs =>
    unfold split
    split_ifs
    · simp
    · cases split sep cs <;> simp

theorem split_of_not_mem (sep : Char) (s : List Char) (h : sep ∉ s) : split sep s = [s] := by
  induction s with
  | nil => rfl
  | cons c cs ih =>
    have hc : c ≠ sep := fun e => h (by simp [e])
    have hcs : sep ∉ cs := fun e => h (by simp [e])
    simp [split, hc, ih hcs]

theorem split_append_sep (sep : Char) (a rest : List Char) (h : sep ∉ a) :
    split sep (a ++ sep :: rest) = a :: split sep rest := by
  induction a with
  | nil => simp [split]
  | cons c cs ih =>
    have hc : c ≠ sep := fun e => h (by simp [e])
    have hcs : sep ∉ cs := fun e => h (by simp [e])
    simp [split, hc, ih hcs]

theorem parseApps_aux (toks : List (List Char)) (acc : List Nat) :
    toks.foldl
      (fun apps appStr =>
        match atoi appStr with
        | none => apps
        | some app => apps ++ [toUint32 app]) acc
      = acc ++ toks.filterMap (fun t => (atoi t).map toUint32) := by
  induction toks generalizing acc with
  | nil => simp
  | cons t ts ih =>
    simp only [List.foldl_cons, List.filterMap_cons]
    rw [ih]
    cases h : atoi t <;> simp

theorem parseApps_eq_filterMap (toks : List (List Char)) :
    parseApps toks = toks.filterMap (fun t => (atoi t).map toUint32) := by
  simp [parseApps, parseApps_aux]

theorem parseAppsInstalled_of_fields {F : Type} (pf : List Char → Option F)
    (line p0 p1 p2 p3 p4 : List Char) (la lo : F)
    (hs : split '\t' (trimSpace line) = [p0, p1, p2, p3, p4])
    (h0 : trimSpace p0 ≠ []) (h1 : trimSpace p1 ≠ [])
    (hla : pf p2 = some la) (hlo : pf p3 = some lo) :
    parseAppsInstalled pf line =
      .ok { devType := trimSpace p0, devId := trimSpace p1, lat := la, lon := lo,
            apps := parseApps (split ',' p4) } := by
  simp [parseAppsInstalled, hs, h0, h1, hla, hlo]

theorem parseAppsInstalled_ok_inv {F : Type} (pf : List Char → Option F)
    (line : List Char) (r : AppsInstalled F) (h : parseAppsInstalled pf line = .ok r) :
    ∃ p0 p1 p2 p3 p4,
      split '\t' (trimSpace line) = [p0, p1, p2, p3, p4] ∧
      trimSpace p0 ≠ [] ∧ trimSpace p1 ≠ [] ∧
      pf p2 = some r.lat ∧ pf p3 = some r.lon ∧
      r.devType = trimSpace p0 ∧ r.devId = trimSpace p1 ∧
      r.apps = parseApps (split ',' p4) := by
  unfold parseAppsInstalled at h
  split at h
  · rename_i p0 p1 p2 p3 p4 hs
    refine ⟨p0, p1, p2, p3, p4, hs, ?_⟩
    simp only at h
    split_ifs at h with hid
    push_neg at hid
    cases hla : pf p2 with
    | none => simp [hla] at h
    | some la =>
      cases hlo : pf p3 with
      | none => simp [hla, hlo] at h
      | some lo =>
        simp only [hla, hlo, Except.ok.injEq] at h
        subst h
        exact ⟨hid.1, hid.2, rfl, rfl, rfl, rfl, rfl⟩
  · cases h

theorem length_filterMap_atoi (toks : List (List Char)) :
    (toks.filterMap (fun t => (atoi t).map toUint32)).length
      = toks.countP (fun t => (atoi t).isSome) := by
  induction toks with
  | nil => rfl
  | cons t ts ih =>
    cases h : atoi t <;> simp [List.filterMap_cons, List.countP_cons, h, ih]

/-! ## The record parser: app ids -/

/-- C2: when `parseAppsInstalled` succeeds on a line, the trimmed line has five
tab-separated fields and `apps` holds, in token order and with duplicates, one
element for each comma-separated token of the fifth field that `Atoi` accepts
(so its length is the number of such tokens); tokens that `Atoi` rejects
contribute nothing, and any line with the same first four fields parses
successfully whatever tokens its fifth field holds. -/
theorem parseAppsInstalled_apps_tokens {F : Type} (pf : List Char → Option F)
    (line : List Char) (r : AppsInstalled F) (h : parseAppsInstalled pf line = .ok r) :
    ∃ p0 p1 p2 p3 p4,
      split '\t' (trimSpace line) = [p0, p1, p2, p3, p4] ∧
      r.apps = (split ',' p4).filterMap (fun t => (atoi t).map toUint32) ∧
      r.apps.length = (split ',' p4).countP (fun t => (atoi t).isSome) ∧
      ∀ other q4, split '\t' (trimSpace other) = [p0, p1, p2, p3, q4] →
        ∃ r', parseAppsInstalled pf other = .ok r' ∧
          r'.apps = (split ',' q4).filterMap (fun t => (atoi t).map toUint32) := by
  obtain ⟨p0, p1, p2, p3, p4, hs, h0, h1, hla, hlo, -, -, happs⟩ :=
    parseAppsInstalled_ok_inv pf line r h
  refine ⟨p0, p1, p2, p3, p4, hs, ?_, ?_, ?_⟩
  · rw [happs, parseApps_eq_filterMap]
  · rw [happs, parseApps_eq_filterMap, length_filterMap_atoi]
  · intro other q4 hq
    refine ⟨_, parseAppsInstalled_of_fields pf other p0 p1 p2 p3 q4 _ _ hq h0 h1 hla hlo, ?_⟩
    simp [parseApps_eq_filterMap]

/-- The sample of C2: the app field `1,x,3` yields the apps `[1, 3]`. -/
theorem parseAppsInstalled_apps_tokens_witness :
    parseAppsInstalled decimalFixed "idfa\tabc\t55.55\t42.42\t1,x,3".toList
        = .ok ⟨"idfa".toList, "abc".toList, (5555, 2), (4242, 2), [1, 3]⟩ ∧
      ∃ p0 p1 p2 p3 p4,
        split '\t' (trimSpace "idfa\tabc\t55.55\t42.42\t1,x,3".toList) = [p0, p1, p2, p3, p4] ∧
        [1, 3] = (split ',' p4).filterMap (fun t => (atoi t).map toUint32) ∧
        [1, 3].length = (split ',' p4).countP (fun t => (atoi t).isSome) ∧
        ∀ other q4, split '\t' (trimSpace other) = [p0, p1, p2, p3, q4] →
          ∃ r', parseAppsInstalled decimalFixed other = .ok r' ∧
            r'.apps = (split ',' q4).filterMap (fun t => (atoi t).map toUint32) :=
  ⟨by decide,
   parseAppsInstalled_apps_tokens decimalFixed "idfa\tabc\t55.55\t42.42\t1,x,3".toList
     ⟨"idfa".toList, "abc".toList, (5555, 2), (4242, 2), [1, 3]⟩ (by decide)⟩

/-- C3, as the code has it: when the trimmed line has five tab-separated
fields, the identity fields are not blank, the float parser accepts the
coordinate fields and `Atoi` rejects every comma-separated token of the fifth
field, `parseAppsInstalled` succeeds with an empty `apps`. -/
theorem parseAppsInstalled_no_valid_app {F : Type} (pf : List Char → Option F)
    (line p0 p1 p2 p3 p4 : List Char) (la lo : F)
    (hs : split '\t' (trimSpace line) = [p0, p1, p2, p3, p4])
    (h0 : trimSpace p0 ≠ []) (h1 : trimSpace p1 ≠ [])
    (hla : pf p2 = some la) (hlo : pf p3 = some lo)
    (hall : ∀ t ∈ split ',' p4, atoi t = none) :
    parseAppsInstalled pf line =
      .ok { devType := trimSpace p0, devId := trimSpace p1, lat := la, lon := lo, apps := [] } := by
  rw [parseAppsInstalled_of_fields pf line p0 p1 p2 p3 p4 la lo hs h0 h1 hla hlo,
    parseApps_eq_filterMap]
  have : (split ',' p4).filterMap (fun t => (atoi t).map toUint32) = [] := by
    rw [List.filterMap_eq_nil_iff]
    intro t ht
    simp [hall t ht]
  rw [this]

/-- A line whose app field holds only tokens that are not integers. -/
theorem parseAppsInstalled_no_valid_app_witness :
    parseAppsInstalled decimalFixed "idfa\tabc\t55.55\t42.42\tx,,y z".toList
      = .ok ⟨"idfa".toList, "abc".toList, (5555, 2), (4242, 2), []⟩ :=
  parseAppsInstalled_no_valid_app decimalFixed "idfa\tabc\t55.55\t42.42\tx,,y z".toList
    "idfa".toList "abc".toList "55.55".toList "42.42".toList "x,,y z".toList (5555, 2) (4242, 2)
    (by decide) (by decide) (by decide) (by decide) (by decide) (by decide)

/-- C3 fails for an empty app field: the line `idfa<TAB>abc<TAB>1<TAB>2<TAB>`
has five tab-separated fields, the last one empty, and valid identity and
coordinate fields, but trimming the line removes the final tab, four fields
remain and the parser returns the field-count error. -/
theorem parseAppsInstalled_empty_app_field :
    split '\t' "idfa\tabc\t1\t2\t".toList
        = ["idfa".toList, "abc".toList, "1".toList, "2".toList, []] ∧
      parseAppsInstalled decimalFixed "idfa\tabc\t1\t2\t".toList = .error .badArgs ∧
      ¬ ∃ r, parseAppsInstalled decimalFixed "idfa\tabc\t1\t2\t".toList = .ok r ∧ r.apps = [] := by
  refine ⟨by decide, by decide, ?_⟩
  rintro ⟨r, hr, -⟩
  have h : parseAppsInstalled decimalFixed "idfa\tabc\t1\t2\t".toList = .error .badArgs := by
    decide
  rw [h] at hr
  cases hr

/-! ## Lemmas on numerals, joining and trimming -/

theorem parseDigits_append (a b : List Char) (n : Nat) :
    parseDigits (a ++ b) n = (parseDigits a n).bind (parseDigits b) := by
  induction a generalizing n with
  | nil => simp [parseDigits]
  | cons c cs ih =>
    simp only [List.cons_append, parseDigits]
    cases digitVal c with
    | none => rfl
    | some d => exact ih _

theorem digitVal_digitChar : ∀ d, d < 10 → digitVal (Nat.digitChar d) = some d := by
  decide

theorem isDigit_digitChar : ∀ d, d < 10 → isDigit (Nat.digitChar d) := by
  unfold isDigit
  decide

theorem isDigit_not_space {c : Char} (h : isDigit c) : isSpace c = false := by
  obtain ⟨h1, h2⟩ := h
  simp only [isSpace, Bool.or_eq_false_iff, Bool.and_eq_false_iff, decide_eq_false_iff_not,
    beq_eq_false_iff_ne, ne_eq]
  omega

theorem isDigit_ne {c : Char} (h : isDigit c) (x : Char) (hx : x.toNat < 48) : c ≠ x := by
  rintro rfl
  exact absurd h.1 (by omega)

theorem toDigitsCore_spec (fuel n : Nat) (ds : List Char) (h : n < fuel) :
    ∃ D, Nat.toDigitsCore 10 fuel n ds = D ++ ds ∧ D ≠ [] ∧
      parseDigits D 0 = some n ∧ ∀ c ∈ D, isDigit c := by
  induction fuel generalizing n ds with
  | zero => omega
  | succ fuel ih =>
    have hmod : n % 10 < 10 := Nat.mod_lt _ (by decide)
    unfold Nat.toDigitsCore
    simp only
    split_ifs with h0
    · refine ⟨[Nat.digitChar (n % 10)], rfl, by simp, ?_, ?_⟩
      · have hn : n % 10 = n := by omega
        have hdv := digitVal_digitChar _ hmod
        rw [hn] at hdv
        simp [parseDigits, hn, hdv]
      · intro c hc
        simp only [List.mem_singleton] at hc
        subst hc
        exact isDigit_digitChar _ hmod
    · obtain ⟨D, hD, -, hval, hdig⟩ := ih (n / 10) (Nat.digitChar (n % 10) :: ds) (by omega)
      refine ⟨D ++ [Nat.digitChar (n % 10)], by simp [hD], by simp, ?_, ?_⟩
      · rw [parseDigits_append, hval]
        simp only [Option.some_bind, parseDigits, digitVal_digitChar _ hmod]
        congr 1
        omega
      · intro c hc
        rcases List.mem_append.1 hc with hc | hc
        · exact hdig c hc
        · simp only [List.mem_singleton] at hc
          subst hc
          exact isDigit_digitChar _ hmod

theorem toDigits_spec (n : Nat) :
    Nat.toDigits 10 n ≠ [] ∧ parseDigits (Nat.toDigits 10 n) 0 = some n ∧
      ∀ c ∈ Nat.toDigits 10 n, isDigit c := by
  obtain ⟨D, hD, hne, hval, hdig⟩ := toDigitsCore_spec (n + 1) n [] (by omega)
  have : Nat.toDigits 10 n = D := by simp [Nat.toDigits, hD]
  rw [this]
  exact ⟨hne, hval, hdig⟩

theorem toUint32_of_lt (n : Nat) (h : n < 2 ^ 32) : toUint32 (n : Int) = n := by
  unfold toUint32
  have : ((n : Int) % (2 ^ 32 : Int)) = (n : Int) := by
    apply Int.emod_eq_of_lt <;> omega
  rw [this]
  simp

theorem intercalate_pair (sep : Char) (a b : List Char) (l : List (List Char)) :
    [sep].intercalate (a :: b :: l) = a ++ sep :: [sep].intercalate (b :: l) := by
  simp [List.intercalate, List.intersperse]

theorem intercalate_single (sep : Char) (a : List Char) : [sep].intercalate [a] = a := by
  simp [List.intercalate, List.intersperse]

theorem split_intercalate (sep : Char) (toks : List (List Char)) (hne : toks ≠ [])
    (h : ∀ t ∈ toks, sep ∉ t) : split sep ([sep].intercalate toks) = toks := by
  induction toks with
  | nil => exact absurd rfl hne
  | cons t ts ih =>
    cases ts with
    | nil =>
      rw [intercalate_single]
      exact split_of_not_mem sep t (h t (by simp))
    | cons u us =>
      rw [intercalate_pair, split_append_sep sep t _ (h t (by simp)),
        ih (by simp) (fun x hx => h x (List.mem_cons_of_mem _ hx))]

theorem mem_intercalate (sep : Char) (toks : List (List Char)) (c : Char)
    (hc : c ∈ [sep].intercalate toks) : c = sep ∨ ∃ t ∈ toks, c ∈ t := by
  induction toks with
  | nil => simp [List.intercalate, List.intersperse] at hc
  | cons t ts ih =>
    cases ts with
    | nil =>
      rw [intercalate_single] at hc
      exact Or.inr ⟨t, by simp, hc⟩
    | cons u us =>
      rw [intercalate_pair] at hc
      rcases List.mem_append.1 hc with h1 | h1
      · exact Or.inr ⟨t, by simp, h1⟩
      · rcases List.mem_cons.1 h1 with h2 | h2
        · exact Or.inl h2
        · rcases ih h2 with h3 | ⟨x, hx, hcx⟩
          · exact Or.inl h3
          · exact Or.inr ⟨x, List.mem_cons_of_mem _ hx, hcx⟩

theorem intercalate_ne_nil (sep : Char) (toks : List (List Char)) (hne : toks ≠ [])
    (h : ∀ t ∈ toks, t ≠ []) : [sep].intercalate toks ≠ [] := by
  cases toks with
  | nil => exact absurd rfl hne
  | cons t ts =>
    cases ts with
    | nil =>
      rw [intercalate_single]
      exact h t (by simp)
    | cons u us =>
      rw [intercalate_pair]
      have := h t (by simp)
      simp [this]

theorem dropWhile_append_of_ne_nil (p : Char → Bool) (a b : List Char)
    (h : a.dropWhile p ≠ []) : (a ++ b).dropWhile p = a.dropWhile p ++ b := by
  rw [List.dropWhile_append]
  have : (List.dropWhile p a).isEmpty = false := by
    cases hd : List.dropWhile p a with
    | nil => exact absurd hd h
    | cons x xs => rfl
  simp [this]

theorem trimRight_concat (l : List Char) (c : Char) (hc : isSpace c = false) :
    (((l ++ [c]).reverse).dropWhile isSpace).reverse = l ++ [c] := by
  simp [List.dropWhile_cons, hc]

theorem dropWhile_ne_nil_of_trimSpace {a : List Char} (h : trimSpace a ≠ []) :
    a.dropWhile isSpace ≠ [] := by
  intro h0
  apply h
  simp [trimSpace, h0]

theorem trimSpace_dropWhile (a : List Char) :
    trimSpace (a.dropWhile isSpace) = trimSpace a := by
  simp [trimSpace, List.dropWhile_idempotent]

theorem trimSpace_append_concat (a mid : List Char) (c : Char) (ha : trimSpace a ≠ [])
    (hc : isSpace c = false) :
    trimSpace (a ++ (mid ++ [c])) = a.dropWhile isSpace ++ (mid ++ [c]) := by
  unfold trimSpace
  rw [dropWhile_append_of_ne_nil _ _ _ (dropWhile_ne_nil_of_trimSpace ha), ← List.append_assoc,
    trimRight_concat _ _ hc]

theorem not_mem_dropWhile {x : Char} {a : List Char} (p : Char → Bool) (h : x ∉ a) :
    x ∉ a.dropWhile p :=
  fun hx => h ((List.dropWhile_sublist p).subset hx)

/-! ## The record parser: identity fields -/

theorem length_split (sep : Char) (s : List Char) :
    (split sep s).length = s.count sep + 1 := by
  induction s with
  | nil => rfl
  | cons c cs ih =>
    unfold split
    by_cases hc : c = sep
    · simp [hc, ih]
    · have hne := split_ne_nil sep cs
      cases hsp : split sep cs with
      | nil => exact absurd hsp hne
      | cons p ps =>
        rw [hsp] at ih
        simp only [hc, if_false, List.length_cons] at ih ⊢
        rw [List.count_cons]
        simp [hc, ih]

theorem parseAppsInstalled_of_length_ne {F : Type} (pf : List Char → Option F)
    (line : List Char) (h : (split '\t' (trimSpace line)).length ≠ 5) :
    parseAppsInstalled pf line = .error .badArgs := by
  unfold parseAppsInstalled
  split
  · rename_i p0 p1 p2 p3 p4 hs
    rw [hs] at h
    exact absurd rfl h
  · rfl

theorem parseAppsInstalled_of_few_tabs {F : Type} (pf : List Char → Option F)
    (line whole : List Char) (hsub : (trimSpace line).Sublist whole)
    (hcount : whole.count '\t' ≤ 3) : parseAppsInstalled pf line = .error .badArgs := by
  apply parseAppsInstalled_of_length_ne
  rw [length_split]
  have := hsub.count_le '\t'
  omega

theorem trimSpace_sublist (s : List Char) : (trimSpace s).Sublist s :=
  (List.rdropWhile_prefix isSpace _).sublist.trans (List.dropWhile_suffix isSpace).sublist

theorem blank_of_trimSpace_nil {f : List Char} (h : trimSpace f = []) :
    ∀ c ∈ f, isSpace c = true := by
  have h1 : List.rdropWhile isSpace (f.dropWhile isSpace) = [] := h
  rw [List.rdropWhile_eq_nil_iff] at h1
  by_cases hd : f.dropWhile isSpace = []
  · exact List.dropWhile_eq_nil_iff.1 hd
  · have h2 := List.head_dropWhile_not isSpace f hd
    have h3 := h1 _ (List.head_mem hd)
    rw [h2] at h3
    cases h3

theorem trimSpace_nil_of_blank {f : List Char} (h : ∀ c ∈ f, isSpace c = true) :
    trimSpace f = [] := by
  have hd : f.dropWhile isSpace = [] := List.dropWhile_eq_nil_iff.2 h
  simp [trimSpace, hd]

theorem rdropWhile_append_of_ne_nil (p : Char → Bool) (x y : List Char)
    (h : List.rdropWhile p y ≠ []) :
    List.rdropWhile p (x ++ y) = x ++ List.rdropWhile p y := by
  have h1 : (y.reverse).dropWhile p ≠ [] := by
    intro h0
    apply h
    simp [List.rdropWhile, h0]
  simp only [List.rdropWhile, List.reverse_append]
  rw [dropWhile_append_of_ne_nil p _ _ h1]
  simp

theorem rdropWhile_append_of_all (p : Char → Bool) (x y : List Char)
    (h : ∀ c ∈ y, p c = true) : List.rdropWhile p (x ++ y) = List.rdropWhile p x := by
  have h1 : (y.reverse).dropWhile p = [] := by
    rw [List.dropWhile_eq_nil_iff]
    intro c hc
    exact h c (List.mem_reverse.1 hc)
  simp only [List.rdropWhile, List.reverse_append]
  rw [List.dropWhile_append, h1]
  simp

theorem count_tab_zero {f : List Char} (h : '\t' ∉ f) : f.count '\t' = 0 :=
  List.count_eq_zero.2 h

theorem split_five (g0 f1 f2 f3 f4 : List Char) (h0 : '\t' ∉ g0) (h1 : '\t' ∉ f1)
    (h2 : '\t' ∉ f2) (h3 : '\t' ∉ f3) (h4 : '\t' ∉ f4) :
    split '\t' (g0 ++ '\t' :: (f1 ++ '\t' :: (f2 ++ '\t' :: (f3 ++ '\t' :: f4))))
      = [g0, f1, f2, f3, f4] := by
  rw [split_append_sep _ _ _ h0, split_append_sep _ _ _ h1, split_append_sep _ _ _ h2,
    split_append_sep _ _ _ h3, split_of_not_mem _ _ h4]

theorem five_fields (f0 f1 f2 f3 f4 : List Char) :
    ['\t'].intercalate [f0, f1, f2, f3, f4]
      = f0 ++ '\t' :: (f1 ++ '\t' :: (f2 ++ '\t' :: (f3 ++ '\t' :: f4))) := by
  simp [intercalate_pair, intercalate_single]

theorem parseAppsInstalled_blank_first {F : Type} (pf : List Char → Option F)
    (f0 f1 f2 f3 f4 : List Char) (h1 : '\t' ∉ f1) (h2 : '\t' ∉ f2) (h3 : '\t' ∉ f3)
    (h4 : '\t' ∉ f4) (hb : trimSpace f0 = []) :
    parseAppsInstalled pf (['\t'].intercalate [f0, f1, f2, f3, f4]) = .error .badArgs := by
  have hd0 : f0.dropWhile isSpace = [] :=
    List.dropWhile_eq_nil_iff.2 (blank_of_trimSpace_nil hb)
  have htab : isSpace '\t' = true := by decide
  have htrim : trimSpace (['\t'].intercalate [f0, f1, f2, f3, f4])
      = trimSpace (f1 ++ '\t' :: (f2 ++ '\t' :: (f3 ++ '\t' :: f4))) := by
    rw [five_fields]
    unfold trimSpace
    rw [List.dropWhile_append, hd0]
    simp [List.dropWhile_cons, htab]
  apply parseAppsInstalled_of_few_tabs pf _ (f1 ++ '\t' :: (f2 ++ '\t' :: (f3 ++ '\t' :: f4)))
  · rw [htrim]
    exact trimSpace_sublist _
  · simp [List.count_append, List.count_cons, count_tab_zero h1, count_tab_zero h2,
      count_tab_zero h3, count_tab_zero h4]

theorem parseAppsInstalled_blank_second {F : Type} (pf : List Char → Option F)
    (f0 f1 f2 f3 f4 : List Char) (h0 : '\t' ∉ f0) (h1 : '\t' ∉ f1) (h2 : '\t' ∉ f2)
    (h3 : '\t' ∉ f3) (h4 : '\t' ∉ f4) (hn : trimSpace f0 ≠ []) (hb : trimSpace f1 = []) :
    parseAppsInstalled pf (['\t'].intercalate [f0, f1, f2, f3, f4])
      = if trimSpace f4 = [] then .error .badArgs else .error .noIdentity := by
  have hd0 := dropWhile_ne_nil_of_trimSpace hn
  have hg0 : '\t' ∉ f0.dropWhile isSpace := not_mem_dropWhile isSpace h0
  have hdrop : (['\t'].intercalate [f0, f1, f2, f3, f4]).dropWhile isSpace
      = f0.dropWhile isSpace ++ '\t' :: (f1 ++ '\t' :: (f2 ++ '\t' :: (f3 ++ '\t' :: f4))) := by
    rw [five_fields, dropWhile_append_of_ne_nil _ _ _ hd0]
  by_cases hb4 : trimSpace f4 = []
  · rw [if_pos hb4]
    have hall : ∀ c ∈ '\t' :: f4, isSpace c = true := by
      intro c hc
      rcases List.mem_cons.1 hc with rfl | hc
      · decide
      · exact blank_of_trimSpace_nil hb4 c hc
    have htrim : trimSpace (['\t'].intercalate [f0, f1, f2, f3, f4])
        = List.rdropWhile isSpace
            (f0.dropWhile isSpace ++ '\t' :: (f1 ++ '\t' :: (f2 ++ '\t' :: f3))) := by
      show List.rdropWhile isSpace ((['\t'].intercalate [f0, f1, f2, f3, f4]).dropWhile isSpace)
        = _
      have e : f0.dropWhile isSpace ++ '\t' :: (f1 ++ '\t' :: (f2 ++ '\t' :: (f3 ++ '\t' :: f4)))
          = (f0.dropWhile isSpace ++ '\t' :: (f1 ++ '\t' :: (f2 ++ '\t' :: f3)))
              ++ '\t' :: f4 := by
        simp
      rw [hdrop, e, rdropWhile_append_of_all isSpace _ ('\t' :: f4) hall]
    apply parseAppsInstalled_of_few_tabs pf _
      (f0.dropWhile isSpace ++ '\t' :: (f1 ++ '\t' :: (f2 ++ '\t' :: f3)))
    · rw [htrim]
      exact (List.rdropWhile_prefix isSpace _).sublist
    · simp [List.count_append, List.count_cons, count_tab_zero h1, count_tab_zero h2,
        count_tab_zero h3, count_tab_zero hg0]
  · rw [if_neg hb4]
    have hz : List.rdropWhile isSpace f4 ≠ [] := by
      intro hz
      apply hb4
      apply trimSpace_nil_of_blank
      exact List.rdropWhile_eq_nil_iff.1 hz
    have hz4 : '\t' ∉ List.rdropWhile isSpace f4 :=
      fun hm => h4 ((List.rdropWhile_prefix isSpace f4).subset hm)
    have htrim : trimSpace (['\t'].intercalate [f0, f1, f2, f3, f4])
        = f0.dropWhile isSpace ++ '\t' :: (f1 ++ '\t' :: (f2 ++ '\t' :: (f3 ++ '\t' ::
            List.rdropWhile isSpace f4))) := by
      show List.rdropWhile isSpace ((['\t'].intercalate [f0, f1, f2, f3, f4]).dropWhile isSpace)
        = _
      rw [hdrop]
      have := rdropWhile_append_of_ne_nil isSpace
        (f0.dropWhile isSpace ++ '\t' :: (f1 ++ '\t' :: (f2 ++ '\t' :: (f3 ++ ['\t'])))) f4 hz
      simpa using this
    have hs := split_five _ f1 f2 f3 _ hg0 h1 h2 h3 hz4
    rw [← htrim] at hs
    simp [parseAppsInstalled, hs, hb]

/-- C4, as the code has it.  The line is trimmed before it is split, so in a
line of five tab-separated fields a blank device-type field is removed with
its tab: such a line fails with the field-count error.  When the device-type
field is not blank and the device-id field is blank, the line fails with the
missing-identity error, or with the field-count error when its last field is
blank as well; in general, when the trimmed line has five fields and the
second one is blank, the error is the missing-identity error.  No record is
returned in any of these cases, and a record returned by a successful parse
has a non-empty `devType` and `devId`. -/
theorem parseAppsInstalled_identity {F : Type} (pf : List Char → Option F) :
    (∀ f0 f1 f2 f3 f4 : List Char, '\t' ∉ f1 → '\t' ∉ f2 → '\t' ∉ f3 → '\t' ∉ f4 →
      trimSpace f0 = [] →
      parseAppsInstalled pf (['\t'].intercalate [f0, f1, f2, f3, f4]) = .error .badArgs) ∧
    (∀ f0 f1 f2 f3 f4 : List Char, '\t' ∉ f0 → '\t' ∉ f1 → '\t' ∉ f2 → '\t' ∉ f3 →
      '\t' ∉ f4 → trimSpace f0 ≠ [] → trimSpace f1 = [] →
      parseAppsInstalled pf (['\t'].intercalate [f0, f1, f2, f3, f4])
        = if trimSpace f4 = [] then .error .badArgs else .error .noIdentity) ∧
    (∀ line p0 p1 p2 p3 p4, split '\t' (trimSpace line) = [p0, p1, p2, p3, p4] →
      trimSpace p1 = [] → parseAppsInstalled pf line = .error .noIdentity) ∧
    (∀ line r, parseAppsInstalled pf line = .ok r → r.devType ≠ [] ∧ r.devId ≠ []) := by
  refine ⟨?_, ?_, ?_, ?_⟩
  · intro f0 f1 f2 f3 f4 h1 h2 h3 h4 hb
    exact parseAppsInstalled_blank_first pf f0 f1 f2 f3 f4 h1 h2 h3 h4 hb
  · intro f0 f1 f2 f3 f4 h0 h1 h2 h3 h4 hn hb
    exact parseAppsInstalled_blank_second pf f0 f1 f2 f3 f4 h0 h1 h2 h3 h4 hn hb
  · intro line p0 p1 p2 p3 p4 hs hid
    simp [parseAppsInstalled, hs, hid]
  · intro line r h
    obtain ⟨p0, p1, p2, p3, p4, -, h0, h1, -, -, hd, hi, -⟩ :=
      parseAppsInstalled_ok_inv pf line r h
    exact ⟨hd ▸ h0, hi ▸ h1⟩

/-- Lines with a blank device type, with a blank device id, with a blank device
id and a blank last field, and a line that parses. -/
theorem parseAppsInstalled_identity_witness :
    parseAppsInstalled decimalFixed "\tabc\t1\t2\t3".toList = .error .badArgs ∧
      parseAppsInstalled decimalFixed " \tabc\t1\t2\t3".toList = .error .badArgs ∧
      parseAppsInstalled decimalFixed "idfa\t \t1\t2\t3".toList = .error .noIdentity ∧
      parseAppsInstalled decimalFixed "idfa\t \t1\t2\t ".toList = .error .badArgs ∧
      parseAppsInstalled decimalFixed " idfa\t\t1\t2\t3 ".toList = .error .noIdentity ∧
      ("idfa".toList ≠ [] ∧ "abc".toList ≠ []) :=
  ⟨(parseAppsInstalled_identity decimalFixed).1
      [] "abc".toList "1".toList "2".toList "3".toList
      (by decide) (by decide) (by decide) (by decide) (by decide),
   (parseAppsInstalled_identity decimalFixed).1
      " ".toList "abc".toList "1".toList "2".toList "3".toList
      (by decide) (by decide) (by decide) (by decide) (by decide),
   (parseAppsInstalled_identity decimalFixed).2.1
      "idfa".toList " ".toList "1".toList "2".toList "3".toList
      (by decide) (by decide) (by decide) (by decide) (by decide) (by decide) (by decide),
   (parseAppsInstalled_identity decimalFixed).2.1
      "idfa".toList " ".toList "1".toList "2".toList " ".toList
      (by decide) (by decide) (by decide) (by decide) (by decide) (by decide) (by decide),
   (parseAppsInstalled_identity decimalFixed).2.2.1 " idfa\t\t1\t2\t3 ".toList
      "idfa".toList [] "1".toList "2".toList "3".toList (by decide) (by decide),
   (parseAppsInstalled_identity decimalFixed).2.2.2 "idfa\tabc\t1\t2\t3".toList
      ⟨"idfa".toList, "abc".toList, (1, 0), (2, 0), [3]⟩ (by decide)⟩

/-- C4 fails as stated: in the line `<TAB>abc<TAB>1<TAB>2<TAB>3` the device-type
field is empty, but trimming the line removes the leading tab, four fields
remain, and the error is the field-count error, not the missing-identity
one. -/
theorem parseAppsInstalled_empty_devType :
    split '\t' "\tabc\t1\t2\t3".toList
        = [[], "abc".toList, "1".toList, "2".toList, "3".toList] ∧
      trimSpace [] = [] ∧
      parseAppsInstalled decimalFixed "\tabc\t1\t2\t3".toList = .error .badArgs ∧
      parseAppsInstalled decimalFixed "\tabc\t1\t2\t3".toList ≠ .error .noIdentity := by
  decide

/-- C10 at a failing input: `Atoi` accepts the tokens `-1` and `4294967296`,
and the conversion `uint32` stores them as the app ids 4294967295 and 0. -/
theorem parseAppsInstalled_wraps_app_id :
    atoi "-1".toList = some (-1) ∧ atoi "4294967296".toList = some 4294967296 ∧
      (parseAppsInstalled decimalFixed "idfa\tabc\t1\t2\t-1,4294967296,7".toList).map
          (fun r => r.apps) = .ok [4294967295, 0, 7] := by
  decide

/-! ## The record parser: well-formed lines -/

theorem digitVal_of_isDigit {c : Char} (h : isDigit c) : digitVal c = some (c.toNat - 48) := by
  simp [digitVal, h.1, h.2]

theorem parseDigits_reverse (l : List Char) (h : ∀ c ∈ l, isDigit c) :
    parseDigits l.reverse 0 = some (Nat.ofDigits 10 (l.map (fun c => c.toNat - 48))) := by
  induction l with
  | nil => rfl
  | cons c cs ih =>
    have hc : isDigit c := h c (by simp)
    rw [List.reverse_cons, parseDigits_append, ih (fun x hx => h x (List.mem_cons_of_mem _ hx))]
    simp only [Option.some_bind, parseDigits, digitVal_of_isDigit hc, List.map_cons,
      Nat.ofDigits_cons]
    congr 1
    omega

theorem parseDigits_digits (ds : List Char) (h : ∀ c ∈ ds, isDigit c) :
    parseDigits ds 0 = some (numeralValue ds) := by
  have := parseDigits_reverse ds.reverse (fun c hc => h c (List.mem_reverse.1 hc))
  rwa [List.reverse_reverse] at this

theorem numeralValue_toDigits (n : Nat) : numeralValue (Nat.toDigits 10 n) = n := by
  obtain ⟨-, hval, hdig⟩ := toDigits_spec n
  have := parseDigits_digits _ hdig
  rw [hval] at this
  exact (Option.some.inj this).symm

theorem atoi_numeral (t : Bool × List Char) (hne : t.2 ≠ []) (hd : ∀ c ∈ t.2, isDigit c)
    (hv : numeralValue t.2 < 2 ^ 63) :
    atoi (numeralText t) = some (numeralValue t.2 : Int) := by
  obtain ⟨plus, ds⟩ := t
  simp only at hne hd hv
  have hval := parseDigits_digits ds hd
  have h64 : numeralValue ds < 18446744073709551616 := by omega
  have h63 : ¬ 9223372036854775808 ≤ numeralValue ds := by omega
  cases plus with
  | true =>
    have hpm : ('+' : Char) ≠ '-' := by decide
    simp [numeralText, atoi, parseUint, hne, hval, h64, h63, hpm]
  | false =>
    cases ds with
    | nil => exact absurd rfl hne
    | cons c cs =>
      have hc : isDigit c := hd c (by simp)
      have hplus : c ≠ '+' := isDigit_ne hc _ (by decide)
      have hminus : c ≠ '-' := isDigit_ne hc _ (by decide)
      simp [numeralText, atoi, hplus, hminus, parseUint, hval, h64, h63]

theorem filterMap_atoi_numerals (toks : List (Bool × List Char))
    (h : ∀ t ∈ toks, t.2 ≠ [] ∧ (∀ c ∈ t.2, isDigit c) ∧ numeralValue t.2 < 2 ^ 32) :
    (toks.map numeralText).filterMap (fun t => (atoi t).map toUint32)
      = toks.map (fun t => numeralValue t.2) := by
  induction toks with
  | nil => rfl
  | cons t ts ih =>
    obtain ⟨hne, hd, hv⟩ := h t (by simp)
    have h63 : numeralValue t.2 < 2 ^ 63 := by omega
    simp only [List.map_cons, List.filterMap_cons, atoi_numeral t hne hd h63, Option.map_some',
      toUint32_of_lt _ hv]
    rw [ih (fun m hm => h m (List.mem_cons_of_mem _ hm))]

theorem numeralText_chars (t : Bool × List Char) (hd : ∀ c ∈ t.2, isDigit c) (c : Char)
    (hc : c ∈ numeralText t) : c = '+' ∨ isDigit c := by
  unfold numeralText at hc
  split_ifs at hc
  · rcases List.mem_cons.1 hc with h | h
    · exact Or.inl h
    · exact Or.inr (hd c h)
  · exact Or.inr (hd c hc)

theorem numeralText_ne_nil (t : Bool × List Char) (hne : t.2 ≠ []) : numeralText t ≠ [] := by
  unfold numeralText
  split_ifs
  · simp
  · exact hne

theorem appField_chars (toks : List (Bool × List Char))
    (hd : ∀ t ∈ toks, ∀ c ∈ t.2, isDigit c) (c : Char)
    (hc : c ∈ [','].intercalate (toks.map numeralText)) :
    c = ',' ∨ c = '+' ∨ isDigit c := by
  rcases mem_intercalate ',' _ c hc with h | ⟨t, ht, hct⟩
  · exact Or.inl h
  · obtain ⟨u, hu, rfl⟩ := List.mem_map.1 ht
    exact Or.inr (numeralText_chars u (hd u hu) c hct)

theorem appField_not_space (toks : List (Bool × List Char))
    (hd : ∀ t ∈ toks, ∀ c ∈ t.2, isDigit c) (c : Char)
    (hc : c ∈ [','].intercalate (toks.map numeralText)) : isSpace c = false := by
  rcases appField_chars toks hd c hc with h | h | h
  · subst h
    decide
  · subst h
    decide
  · exact isDigit_not_space h

/-- C1, as the code has it.  Take a line made of five tab-separated fields (no
field contains a tab) in which the device-type and device-id fields are not
blank, fields 2 and 3 are plain decimal numerals whose values round to a
`float64` in range, and the app field is a non-empty comma-separated list of
decimal numerals (digits, leading zeros and a leading `+` allowed) of integers
below `2^32`; let the float parser return the nearest `float64` on plain
decimal numerals, as `strconv.ParseFloat` is documented to.  Then
`parseAppsInstalled` succeeds; `devType` and `devId` are the first two fields
with surrounding white space removed, `lat` and `lon` are the `float64` values
nearest to the numbers written in fields 2 and 3, and `apps` is the list of
the integers written, in order. -/
theorem parseAppsInstalled_wellFormed (pf : List Char → Option F64) (hpf : RoundsDecimals pf)
    (f0 f1 f2 f3 : List Char) (toks : List (Bool × List Char))
    (s2 s3 : Bool) (a2 b2 a3 b3 : Nat) (v2 v3 : Nat × Nat)
    (h0 : '\t' ∉ f0) (h1 : '\t' ∉ f1) (h2 : '\t' ∉ f2) (h3 : '\t' ∉ f3)
    (hd0 : trimSpace f0 ≠ []) (hd1 : trimSpace f1 ≠ [])
    (hn2 : decimalNumeral f2 = some (s2, a2, b2)) (hr2 : nearestFloat64 a2 b2 = some v2)
    (hn3 : decimalNumeral f3 = some (s3, a3, b3)) (hr3 : nearestFloat64 a3 b3 = some v3)
    (hne : toks ≠ [])
    (htok : ∀ t ∈ toks, t.2 ≠ [] ∧ (∀ c ∈ t.2, isDigit c) ∧ numeralValue t.2 < 2 ^ 32) :
    parseAppsInstalled pf
        (['\t'].intercalate [f0, f1, f2, f3, [','].intercalate (toks.map numeralText)])
      = .ok { devType := trimSpace f0, devId := trimSpace f1,
              lat := F64.finite s2 v2.1 v2.2, lon := F64.finite s3 v3.1 v3.2,
              apps := toks.map (fun t => numeralValue t.2) } := by
  have hla : pf f2 = some (F64.finite s2 v2.1 v2.2) :=
    hpf f2 _ (by simp [parseFloatDecimal, hn2, hr2])
  have hlo : pf f3 = some (F64.finite s3 v3.1 v3.2) :=
    hpf f3 _ (by simp [parseFloatDecimal, hn3, hr3])
  have hdig : ∀ t ∈ toks, ∀ c ∈ t.2, isDigit c := fun t ht => (htok t ht).2.1
  have htoks : toks.map numeralText ≠ [] := by simpa using hne
  have hf4ne : [','].intercalate (toks.map numeralText) ≠ [] := by
    apply intercalate_ne_nil _ _ htoks
    intro t ht
    obtain ⟨u, hu, rfl⟩ := List.mem_map.1 ht
    exact numeralText_ne_nil u (htok u hu).1
  have hsp := appField_not_space toks hdig
  have hcomma : ∀ t ∈ toks.map numeralText, ',' ∉ t := by
    intro t ht hmem
    obtain ⟨u, hu, rfl⟩ := List.mem_map.1 ht
    rcases numeralText_chars u (hdig u hu) _ hmem with h | h
    · revert h
      decide
    · exact isDigit_ne h ',' (by decide) rfl
  have hsplit4 := split_intercalate ',' _ htoks hcomma
  generalize [','].intercalate (toks.map numeralText) = f4 at hf4ne hsp hsplit4
  have h4 : '\t' ∉ f4 := by
    intro hmem
    have := hsp _ hmem
    revert this
    decide
  have htrim : trimSpace (['\t'].intercalate [f0, f1, f2, f3, f4])
      = f0.dropWhile isSpace ++ '\t' :: (f1 ++ '\t' :: (f2 ++ '\t' :: (f3 ++ '\t' :: f4))) := by
    rcases List.eq_nil_or_concat f4 with hnil | ⟨b, c, hbc⟩
    · exact absurd hnil hf4ne
    · rw [List.concat_eq_append] at hbc
      have hc : isSpace c = false := hsp c (by simp [hbc])
      have := trimSpace_append_concat f0
        ('\t' :: (f1 ++ '\t' :: (f2 ++ '\t' :: (f3 ++ '\t' :: b)))) c hd0 hc
      rw [five_fields, hbc]
      simpa using this
  have hs := split_five _ f1 f2 f3 f4 (not_mem_dropWhile isSpace h0) h1 h2 h3 h4
  rw [← htrim] at hs
  rw [parseAppsInstalled_of_fields pf _ _ f1 f2 f3 f4 _ _ hs
    (by rw [trimSpace_dropWhile]; exact hd0) hd1 hla hlo, trimSpace_dropWhile, hsplit4,
    parseApps_eq_filterMap, filterMap_atoi_numerals toks htok]

/-- The first line of the sample of `TestParseLine`, and a line with
surrounding white space in the identity fields, a leading `+` and leading
zeros in the app ids. -/
theorem parseAppsInstalled_wellFormed_witness :
    parseAppsInstalled parseFloatDecimal
        "idfa\tt1rfw452y52g2gq4g\t55.55\t42.42\t1423,43,567,3,7,23".toList
      = .ok ⟨"idfa".toList, "t1rfw452y52g2gq4g".toList,
              F64.finite false 7817967478138470 140737488355328,
              F64.finite false 5970084256033014 140737488355328,
              [1423, 43, 567, 3, 7, 23]⟩ ∧
    parseAppsInstalled parseFloatDecimal " gaid \t x y\t-0.5\t7\t007,+42,4294967295".toList
      = .ok ⟨"gaid".toList, "x y".toList, F64.finite true 4503599627370496 9007199254740992,
              F64.finite false 7881299347898368 1125899906842624, [7, 42, 4294967295]⟩ :=
  ⟨parseAppsInstalled_wellFormed parseFloatDecimal (fun _ _ h => h)
      "idfa".toList "t1rfw452y52g2gq4g".toList "55.55".toList "42.42".toList
      [(false, "1423".toList), (false, "43".toList), (false, "567".toList),
       (false, "3".toList), (false, "7".toList), (false, "23".toList)]
      false false 5555 100 4242 100 (7817967478138470, 140737488355328)
      (5970084256033014, 140737488355328)
      (by decide) (by decide) (by decide) (by decide) (by decide) (by decide) (by decide)
      (by decide) (by decide) (by decide) (by decide) (by decide),
   parseAppsInstalled_wellFormed parseFloatDecimal (fun _ _ h => h)
      " gaid ".toList " x y".toList "-0.5".toList "7".toList
      [(false, "007".toList), (true, "42".toList), (false, "4294967295".toList)]
      true false 5 10 7 1 (4503599627370496, 9007199254740992)
      (7881299347898368, 1125899906842624)
      (by decide) (by decide) (by decide) (by decide) (by decide) (by decide) (by decide)
      (by decide) (by decide) (by decide) (by decide) (by decide)⟩

set_option exponentiation.threshold 2000 in
set_option maxRecDepth 100000 in
/-- C1 fails as stated.  In the line `idfa<TAB> <TAB>1<TAB>2<TAB>3` every field
is non-empty (the device id is one space), but the parser returns the
missing-identity error; in `idfa<TAB>abc <TAB>1<TAB>2<TAB>3` the returned
`devId` is `abc`, not the field `abc `; with an empty list of apps,
`idfa<TAB>abc<TAB>1<TAB>2<TAB>`, the parser returns the field-count error.
With the latitude `55.55` the returned `lat` is the `float64`
`7817967478138470 / 2^47`, which is not the number written, `5555 / 100`.
With a latitude written as 1 followed by 309 zeros, a decimal numeral, the
value is out of the `float64` range and the parser returns the error of the
float parser. -/
theorem parseAppsInstalled_not_as_written :
    split '\t' "idfa\t \t1\t2\t3".toList
        = ["idfa".toList, " ".toList, "1".toList, "2".toList, "3".toList] ∧
      parseAppsInstalled parseFloatDecimal "idfa\t \t1\t2\t3".toList = .error .noIdentity ∧
      split '\t' "idfa\tabc \t1\t2\t3".toList
        = ["idfa".toList, "abc ".toList, "1".toList, "2".toList, "3".toList] ∧
      (parseAppsInstalled parseFloatDecimal "idfa\tabc \t1\t2\t3".toList).map (fun r => r.devId)
        = .ok "abc".toList ∧
      "abc".toList ≠ "abc ".toList ∧
      parseAppsInstalled parseFloatDecimal "idfa\tabc\t1\t2\t".toList = .error .badArgs ∧
      decimalNumeral "55.55".toList = some (false, 5555, 100) ∧
      (parseAppsInstalled parseFloatDecimal "idfa\tabc\t55.55\t42.42\t1".toList).map
          (fun r => r.lat) = .ok (F64.finite false 7817967478138470 140737488355328) ∧
      7817967478138470 * 100 ≠ 5555 * 140737488355328 ∧
      (decimalNumeral ('1' :: List.replicate 309 '0')).isSome = true ∧
      parseFloatDecimal ('1' :: List.replicate 309 '0') = none ∧
      parseAppsInstalled parseFloatDecimal
          ("idfa\tabc\t".toList ++ '1' :: List.replicate 309 '0' ++ "\t2\t3".toList)
        = .error .badFloat := by
  decide

/-! ## Upload with retry -/

theorem setItem_cases (resp : Nat → Bool) :
    (resp 0 = true ∧ setItem resp = ⟨false, 1, []⟩) ∨
    (resp 0 = false ∧ resp 1 = true ∧ setItem resp = ⟨false, 2, [500, 1000]⟩) ∨
    (resp 0 = false ∧ resp 1 = false ∧ resp 2 = true ∧
      setItem resp = ⟨false, 3, [500, 1000, 2000]⟩) ∨
    (resp 0 = false ∧ resp 1 = false ∧ resp 2 = false ∧ resp 3 = true ∧
      setItem resp = ⟨false, 4, [500, 1000, 2000, 4000]⟩) ∨
    (resp 0 = false ∧ resp 1 = false ∧ resp 2 = false ∧ resp 3 = false ∧
      setItem resp = ⟨true, 4, [500, 1000, 2000, 4000]⟩) := by
  cases h0 : resp 0 <;> cases h1 : resp 1 <;> cases h2 : resp 2 <;> cases h3 : resp 3 <;>
    simp [setItem, setItemLoop, h0, h1, h2, h3]

/-- C5: whatever the store answers (`resp k` is the answer to call number `k`
for the item), `setItem` calls `Set` at most 4 times and every call before the
last one failed (no call follows a success); it returns success exactly when
one of its calls succeeded, and then `MemcacheWorker` (not in dry-run) adds one
to `processed` and leaves `errors`; otherwise all 4 calls failed, and the
worker adds one to `errors` and leaves `processed`. -/
theorem setItem_attempts (resp : Nat → Bool) (stat : Statistic) :
    (setItem resp).calls ≤ 4 ∧
    (∀ k, k + 1 < (setItem resp).calls → resp k = false) ∧
    ((setItem resp).failed = false ↔ ∃ k, k < (setItem resp).calls ∧ resp k = true) ∧
    ((∃ k, k < (setItem resp).calls ∧ resp k = true) →
      workerItem false resp stat
        = { processed := stat.processed + 1, errors := stat.errors }) ∧
    ((¬ ∃ k, k < (setItem resp).calls ∧ resp k = true) →
      (setItem resp).calls = 4 ∧ (∀ k, k < 4 → resp k = false) ∧
      workerItem false resp stat
        = { processed := stat.processed, errors := stat.errors + 1 }) := by
  have hall : ∀ (c : Nat), (∀ k, k < c → resp k = false) →
      ¬ ∃ k, k < c ∧ resp k = true := by
    rintro c hc ⟨k, hk, hkt⟩
    rw [hc k hk] at hkt
    cases hkt
  have hok : ∀ (c : Nat) (sl : List Nat), setItem resp = ⟨false, c, sl⟩ →
      workerItem false resp stat = { processed := stat.processed + 1, errors := stat.errors } := by
    intro c sl hs
    simp [workerItem, hs]
  rcases setItem_cases resp with ⟨h0, hs⟩ | ⟨h0, h1, hs⟩ | ⟨h0, h1, h2, hs⟩ |
    ⟨h0, h1, h2, h3, hs⟩ | ⟨h0, h1, h2, h3, hs⟩
  · have hex : ∃ k, k < (setItem resp).calls ∧ resp k = true := ⟨0, by simp [hs], h0⟩
    refine ⟨by simp [hs], fun k hk => ?_, ⟨fun _ => hex, fun _ => by rw [hs]⟩,
      fun _ => hok _ _ hs, fun hn => absurd hex hn⟩
    rw [hs] at hk
    simp at hk
  · have hex : ∃ k, k < (setItem resp).calls ∧ resp k = true := ⟨1, by simp [hs], h1⟩
    refine ⟨by simp [hs], fun k hk => ?_, ⟨fun _ => hex, fun _ => by rw [hs]⟩,
      fun _ => hok _ _ hs, fun hn => absurd hex hn⟩
    rw [hs] at hk
    have : k = 0 := by simp at hk; omega
    rw [this, h0]
  · have hex : ∃ k, k < (setItem resp).calls ∧ resp k = true := ⟨2, by simp [hs], h2⟩
    refine ⟨by simp [hs], fun k hk => ?_, ⟨fun _ => hex, fun _ => by rw [hs]⟩,
      fun _ => hok _ _ hs, fun hn => absurd hex hn⟩
    rw [hs] at hk
    have : k = 0 ∨ k = 1 := by simp at hk; omega
    rcases this with rfl | rfl
    · exact h0
    · exact h1
  · have hex : ∃ k, k < (setItem resp).calls ∧ resp k = true := ⟨3, by simp [hs], h3⟩
    refine ⟨by simp [hs], fun k hk => ?_, ⟨fun _ => hex, fun _ => by rw [hs]⟩,
      fun _ => hok _ _ hs, fun hn => absurd hex hn⟩
    rw [hs] at hk
    have : k = 0 ∨ k = 1 ∨ k = 2 := by simp at hk; omega
    rcases this with rfl | rfl | rfl
    · exact h0
    · exact h1
    · exact h2
  · have hfour : ∀ k, k < 4 → resp k = false := by
      intro k hk
      have : k = 0 ∨ k = 1 ∨ k = 2 ∨ k = 3 := by omega
      rcases this with rfl | rfl | rfl | rfl
      · exact h0
      · exact h1
      · exact h2
      · exact h3
    have hcalls : (setItem resp).calls = 4 := by rw [hs]
    have hnone : ¬ ∃ k, k < (setItem resp).calls ∧ resp k = true := by
      rw [hcalls]
      exact hall 4 hfour
    refine ⟨by simp [hs], fun k hk => hfour k (by rw [hcalls] at hk; omega),
      ⟨fun h => ?_, fun h => absurd h hnone⟩, fun h => absurd h hnone,
      fun _ => ⟨hcalls, hfour, by simp [workerItem, hs]⟩⟩
    rw [hs] at h
    cases h

/-- The sample of C5: a store that fails twice and succeeds on the third call
gives `processed + 1`. -/
theorem setItem_attempts_witness :
    workerItem false (fun k => decide (k = 2)) { processed := 7, errors := 2 }
      = { processed := 8, errors := 2 } :=
  (setItem_attempts (fun k => decide (k = 2)) { processed := 7, errors := 2 }).2.2.2.1
    ⟨2, by decide, by decide⟩

/-- C6 at failing inputs: `setItem` sleeps once more after its last call.  With
a store that fails once and then succeeds it sleeps 500 ms and then 1000 ms
(one retry, two sleeps); with a store that always fails it makes 4 calls and
sleeps 500, 1000, 2000 and 4000 ms, 7500 ms in all. -/
theorem setItem_sleeps :
    setItem (fun k => decide (k = 1)) = ⟨false, 2, [500, 1000]⟩ ∧
      setItem (fun _ => false) = ⟨true, 4, [500, 1000, 2000, 4000]⟩ ∧
      (setItem (fun _ => false)).sleeps.sum = 7500 ∧
      setItem (fun _ => true) = ⟨false, 1, []⟩ := by
  decide

/-! ## Line loop of `processFile` -/

theorem parseAppsInstalled_nil {F : Type} (pf : List Char → Option F) :
    parseAppsInstalled pf [] = .error .badArgs := by
  simp [parseAppsInstalled, trimSpace, split]

theorem enqueued_blank {F V : Type} (pf : List Char → Option F)
    (marshal : F → F → List Nat → V) (pool : List (List Char)) (text : List Char)
    (h : trimSpace text = []) : enqueued pf marshal pool text = none := by
  simp [enqueued, h, parseAppsInstalled_nil]

theorem lineStep_eq {F V : Type} (pf : List Char → Option F)
    (marshal : F → F → List Nat → V) (pool : List (List Char)) (st : LoaderState V)
    (text : List Char) :
    lineStep pf marshal pool st text =
      if trimSpace text = [] then st
      else
        match enqueued pf marshal pool text with
        | none => { errors := st.errors + 1, sent := st.sent }
        | some e => { errors := st.errors, sent := st.sent ++ [e] } := by
  unfold lineStep enqueued
  by_cases hb : trimSpace text = []
  · simp [hb]
  · simp only [hb, if_false]
    cases parseAppsInstalled pf (trimSpace text) with
    | error e => rfl
    | ok r =>
      by_cases hm : r.devType ∈ pool
      · simp [hm]
      · simp [hm]

theorem lineLoop_aux {F V : Type} (pf : List Char → Option F)
    (marshal : F → F → List Nat → V) (pool : List (List Char)) (lines : List (List Char))
    (st : LoaderState V) :
    lines.foldl (lineStep pf marshal pool) st =
      { errors := st.errors + lines.countP (rejected pf marshal pool),
        sent := st.sent ++ lines.filterMap (enqueued pf marshal pool) } := by
  induction lines generalizing st with
  | nil => simp
  | cons text rest ih =>
    rw [List.foldl_cons, ih, lineStep_eq]
    by_cases hb : trimSpace text = []
    · simp [hb, rejected, enqueued_blank pf marshal pool text hb]
    · cases he : enqueued pf marshal pool text with
      | none => simp [hb, he, rejected, List.countP_cons]; omega
      | some e => simp [hb, he, rejected, List.countP_cons]

theorem countP_add_length_filterMap {α β : Type} (l : List α) (f : α → Option β)
    (p q : α → Bool) (h : ∀ a, q a = (p a || (f a).isSome))
    (hd : ∀ a, p a = true → f a = none) :
    l.countP p + (l.filterMap f).length = (l.filter q).length := by
  induction l with
  | nil => rfl
  | cons a l ih =>
    cases hf : f a with
    | none =>
      cases hp : p a <;> simp [List.filterMap_cons, List.countP_cons, List.filter_cons, h, hf, hp]
        <;> omega
    | some b =>
      have hp : p a = false := by
        cases hp : p a
        · rfl
        · rw [hd a hp] at hf
          cases hf
      simp [List.filterMap_cons, List.countP_cons, List.filter_cons, h, hf, hp]
      omega

/-- The line loop on the lines the scanner returns.  A line that is blank
after trimming leaves the state as it is; a non-blank line that does not
parse, or whose device type is not a key of the pool, adds 1 to the error
count and sends nothing; any other line sends one item, with the key
`devType:devId`, on the queue of its device type, and leaves the error count.
So the items sent are those of the accepted scanned lines in line order (on
every queue as well), and the error count plus the number of items sent is the
number of non-blank scanned lines. -/
theorem lineLoop_scanned {F V : Type} (pf : List Char → Option F)
    (marshal : F → F → List Nat → V) (pool : List (List Char)) (lines : List (List Char)) :
    (∀ (st : LoaderState V) text, trimSpace text = [] →
      lineStep pf marshal pool st text = st) ∧
    (∀ (st : LoaderState V) text, trimSpace text ≠ [] →
      enqueued pf marshal pool text = none →
      lineStep pf marshal pool st text = { errors := st.errors + 1, sent := st.sent }) ∧
    (∀ (st : LoaderState V) text e, trimSpace text ≠ [] →
      enqueued pf marshal pool text = some e →
      lineStep pf marshal pool st text = { errors := st.errors, sent := st.sent ++ [e] }) ∧
    (lineLoop pf marshal pool lines).sent
      = (scanLines lines).filterMap (enqueued pf marshal pool) ∧
    (lineLoop pf marshal pool lines).errors
      = (scanLines lines).countP (rejected pf marshal pool) ∧
    (lineLoop pf marshal pool lines).errors + (lineLoop pf marshal pool lines).sent.length
      = nonBlank (scanLines lines) ∧
    (∀ d, ((lineLoop pf marshal pool lines).sent.filter (fun e => decide (e.1 = d))).map Prod.snd
      = (scanLines lines).filterMap (fun text =>
          (enqueued pf marshal pool text).bind
            (fun e => if e.1 = d then some e.2 else none))) ∧
    (∀ e ∈ (lineLoop pf marshal pool lines).sent,
      e.1 ∈ pool ∧ ∃ text ∈ scanLines lines, ∃ r,
        parseAppsInstalled pf (trimSpace text) = .ok r ∧ e.1 = r.devType ∧
        e.2.key = r.devType ++ ':' :: r.devId) := by
  have hloop := lineLoop_aux pf marshal pool (scanLines lines) { errors := 0, sent := [] }
  have hsent : (lineLoop pf marshal pool lines).sent
      = (scanLines lines).filterMap (enqueued pf marshal pool) := by
    simp [lineLoop, hloop]
  have herr : (lineLoop pf marshal pool lines).errors
      = (scanLines lines).countP (rejected pf marshal pool) := by
    simp [lineLoop, hloop]
  refine ⟨?_, ?_, ?_, hsent, herr, ?_, ?_, ?_⟩
  · intro st text hb
    simp [lineStep_eq, hb]
  · intro st text hb he
    simp [lineStep_eq, hb, he]
  · intro st text e hb he
    simp [lineStep_eq, hb, he]
  · rw [hsent, herr]
    apply countP_add_length_filterMap
    · intro text
      by_cases hb : trimSpace text = []
      · simp [rejected, hb, enqueued_blank pf marshal pool text hb]
      · cases he : enqueued pf marshal pool text <;> simp [rejected, hb, he]
    · intro text hr
      simp only [rejected, Bool.and_eq_true, Option.isNone_iff_eq_none] at hr
      exact hr.2
  · intro d
    rw [hsent]
    clear hloop hsent herr
    generalize scanLines lines = ls
    induction ls with
    | nil => rfl
    | cons text rest ih =>
      cases he : enqueued pf marshal pool text with
      | none => simp [List.filterMap_cons, he, ih]
      | some e =>
        by_cases hd : e.1 = d
        · simp [List.filterMap_cons, he, hd, List.filter_cons, ih]
        · simp [List.filterMap_cons, he, hd, List.filter_cons, ih]
  · intro e he
    rw [hsent, List.mem_filterMap] at he
    obtain ⟨text, hmem, hen⟩ := he
    unfold enqueued at hen
    cases hp : parseAppsInstalled pf (trimSpace text) with
    | error err => simp [hp] at hen
    | ok r =>
      simp only [hp] at hen
      split_ifs at hen with hm
      simp only [Option.some.injEq] at hen
      subst hen
      exact ⟨hm, text, hmem, r, hp, rfl, rfl⟩

theorem scanLines_of_short (lines : List (List Char))
    (h : ∀ text ∈ lines, byteLen text + 1 ≤ maxScanTokenSize) : scanLines lines = lines := by
  unfold scanLines
  rw [List.takeWhile_eq_self_iff]
  intro text ht
  simpa using h text ht

theorem trimSpace_replicate_space (n : Nat) : trimSpace (List.replicate n ' ') = [] := by
  have h : (List.replicate n ' ').dropWhile isSpace = [] := by
    rw [List.dropWhile_eq_nil_iff]
    intro x hx
    rw [List.eq_of_mem_replicate hx]
    decide
  simp [trimSpace, h]

theorem byteLen_replicate_space (n : Nat) : byteLen (List.replicate n ' ') = n := by
  have h : Char.utf8Size ' ' = 1 := by decide
  simp [byteLen, List.map_replicate, List.sum_replicate, h]

theorem nonBlank_around_spaces (n : Nat) :
    nonBlank ["x".toList, List.replicate n ' ', "y".toList] = 2 := by
  have hx : trimSpace ['x'] ≠ [] := by decide
  have hy : trimSpace ['y'] ≠ [] := by decide
  have hs := trimSpace_replicate_space n
  generalize List.replicate n ' ' = sp at hs
  simp [nonBlank, List.filter_cons, hx, hy, hs]

theorem scanLines_longFile : scanLines longFile = ["x".toList] := by
  have h1 : byteLen "x".toList + 1 ≤ maxScanTokenSize := by decide
  have h2 : ¬ byteLen (List.replicate 70000 ' ') + 1 ≤ maxScanTokenSize := by
    rw [byteLen_replicate_space]
    decide
  simp only [scanLines, longFile, List.takeWhile_cons, h1, h2, decide_True, decide_False,
    if_true, Bool.false_eq_true, if_false]

/-- C8 at a failing input: in the file of the three lines `x`, 70000 spaces
and `y`, two lines are not blank; the scanner returns `x` and then stops at
the long line, `y` is never handled, and the loop ends with an error count of
1 and nothing sent: the count of the loader plus the items sent is 1, not the
2 non-blank lines.  When every line and its newline fit the buffer, all the
lines are scanned. -/
theorem lineLoop_stops_at_long_line :
    nonBlank longFile = 2 ∧ scanLines longFile = ["x".toList] ∧
      (lineLoop decimalFixed sampleConfig.marshal memcPoolKeys longFile).errors = 1 ∧
      (lineLoop decimalFixed sampleConfig.marshal memcPoolKeys longFile).sent.length = 0 ∧
      scanLines sampleFile = sampleFile := by
  refine ⟨nonBlank_around_spaces 70000, scanLines_longFile, ?_, ?_, by decide⟩
  · simp only [lineLoop, scanLines_longFile]
    decide
  · simp only [lineLoop, scanLines_longFile]
    decide

/-! ## Error rate verdict -/

theorem log2Fuel_spec (fuel n : Nat) (hn : 0 < n) (hf : n ≤ fuel) :
    2 ^ log2Fuel fuel n ≤ n ∧ n < 2 ^ (log2Fuel fuel n + 1) := by
  induction fuel generalizing n with
  | zero => omega
  | succ fuel ih =>
    unfold log2Fuel
    split_ifs with h2
    · obtain ⟨h1, h3⟩ := ih (n / 2) (by omega) (by omega)
      rw [pow_succ] at h3 ⊢
      rw [pow_succ]
      constructor <;> omega
    · have : n = 1 := by omega
      subst this
      simp

theorem ilog2_spec (n : Nat) (hn : 0 < n) : 2 ^ ilog2 n ≤ n ∧ n < 2 ^ (ilog2 n + 1) :=
  log2Fuel_spec n n hn le_rfl

theorem float32OfNat_of_lt (n : Nat) (h : n < 2 ^ 24) : float32OfNat n = n := by
  have hl : ilog2 n - 23 = 0 := by
    rcases Nat.eq_zero_or_pos n with h0 | h0
    · subst h0
      rfl
    · have h1 := (ilog2_spec n h0).1
      by_contra hc
      have h24 : 24 ≤ ilog2 n := by omega
      have := Nat.pow_le_pow_right (by decide : 0 < 2) h24
      omega
  simp [float32OfNat, hl, roundHalfEven, Nat.mod_one]

theorem roundHalfEven_bounds (a b : Nat) :
    a / b ≤ roundHalfEven a b ∧ roundHalfEven a b ≤ a / b + 1 := by
  unfold roundHalfEven
  simp only
  split_ifs <;> omega

theorem roundHalfEven_lt_const (a b : Nat) (hb : 0 < b) :
    roundHalfEven a b < 10737418 ↔ 2 * a + b < 21474836 * b := by
  have hdm : b * (a / b) + a % b = a := Nat.div_add_mod a b
  have hr : a % b < b := Nat.mod_lt a hb
  rcases Nat.lt_trichotomy (a / b + 1) 10737418 with hq | hq | hq
  · have hm : b * (a / b + 2) ≤ b * 10737418 := Nat.mul_le_mul_left b (by omega)
    rw [Nat.mul_add] at hm
    have := (roundHalfEven_bounds a b).2
    constructor
    · intro _
      omega
    · intro _
      omega
  · have hqv : a / b = 10737417 := by omega
    unfold roundHalfEven
    simp only
    generalize a / b = q at *
    generalize a % b = r at *
    subst hqv
    clear hq
    split_ifs with h1 h2 h3
    · constructor
      · intro _
        omega
      · intro _
        decide
    · constructor
      · intro h
        exact absurd h (by decide)
      · intro h
        exfalso
        push_neg at h1
        linarith
    · exact absurd h3 (by decide)
    · constructor
      · intro h
        exact absurd h (by decide)
      · intro h
        exfalso
        push_neg at h1
        linarith
  · have hm : b * 10737418 ≤ b * (a / b) := Nat.mul_le_mul_left b (by omega)
    have := (roundHalfEven_bounds a b).1
    constructor
    · intro _
      omega
    · intro _
      omega

theorem float32Div_cases (a b : Nat) (ha : 0 < a) (hb : 0 < b) :
    (∃ s, float32Div a b = (roundHalfEven (a * 2 ^ s) b, 2 ^ s) ∧
      2 ^ 23 * b ≤ a * 2 ^ s ∧ a * 2 ^ s < 2 ^ 24 * b) ∨
    (∃ t, float32Div a b = (roundHalfEven a (b * 2 ^ t) * 2 ^ t, 1) ∧
      2 ^ 24 * b ≤ a ∧ 2 ^ 23 * (b * 2 ^ t) ≤ a) := by
  have hbk : b < 2 ^ (ilog2 b + 1) := (ilog2_spec b hb).2
  have hK : 0 < 2 ^ (ilog2 b + 1) := Nat.two_pow_pos _
  have hy : 0 < a * 2 ^ (ilog2 b + 1) / b := by
    apply Nat.div_pos _ hb
    calc b ≤ 1 * 2 ^ (ilog2 b + 1) := by omega
      _ ≤ a * 2 ^ (ilog2 b + 1) := Nat.mul_le_mul_right _ ha
  obtain ⟨hl1, hl2⟩ := ilog2_spec _ hy
  have h1 : 2 ^ ilog2 (a * 2 ^ (ilog2 b + 1) / b) * b ≤ a * 2 ^ (ilog2 b + 1) :=
    (Nat.mul_le_mul_right b hl1).trans (Nat.div_mul_le_self _ _)
  have h2 : a * 2 ^ (ilog2 b + 1) < 2 ^ (ilog2 (a * 2 ^ (ilog2 b + 1) / b) + 1) * b :=
    (Nat.div_lt_iff_lt_mul hb).1 hl2
  have hdef : float32Div a b =
      if ilog2 (a * 2 ^ (ilog2 b + 1) / b) ≤ 23 + (ilog2 b + 1) then
        (roundHalfEven (a * 2 ^ (23 + (ilog2 b + 1) - ilog2 (a * 2 ^ (ilog2 b + 1) / b))) b,
          2 ^ (23 + (ilog2 b + 1) - ilog2 (a * 2 ^ (ilog2 b + 1) / b)))
      else (roundHalfEven a (b * 2 ^ (ilog2 (a * 2 ^ (ilog2 b + 1) / b) - (23 + (ilog2 b + 1))))
              * 2 ^ (ilog2 (a * 2 ^ (ilog2 b + 1) / b) - (23 + (ilog2 b + 1))), 1) := by
    have ha0 : a ≠ 0 := by omega
    simp only [float32Div, ha0, if_false]
  generalize ilog2 (a * 2 ^ (ilog2 b + 1) / b) = l at hl1 hl2 h1 h2 hdef
  generalize ilog2 b + 1 = k at hbk hK h1 h2 hdef
  by_cases hle : l ≤ 23 + k
  · left
    rw [if_pos hle] at hdef
    refine ⟨23 + k - l, hdef, ?_, ?_⟩
    · have hSL : 2 ^ (23 + k - l) * 2 ^ l = 2 ^ 23 * 2 ^ k := by
        rw [← pow_add, ← pow_add]
        congr 1
        omega
      have h5 : 2 ^ k * (2 ^ 23 * b) ≤ 2 ^ k * (a * 2 ^ (23 + k - l)) := by
        calc 2 ^ k * (2 ^ 23 * b) = 2 ^ (23 + k - l) * 2 ^ l * b := by rw [hSL]; ring
          _ = 2 ^ (23 + k - l) * (2 ^ l * b) := by ring
          _ ≤ 2 ^ (23 + k - l) * (a * 2 ^ k) := Nat.mul_le_mul_left _ h1
          _ = 2 ^ k * (a * 2 ^ (23 + k - l)) := by ring
      exact Nat.le_of_mul_le_mul_left h5 hK
    · have hSL : 2 ^ (23 + k - l) * 2 ^ (l + 1) = 2 ^ 24 * 2 ^ k := by
        rw [← pow_add, ← pow_add]
        congr 1
        omega
      have hS : 0 < 2 ^ (23 + k - l) := Nat.two_pow_pos _
      have h5 : 2 ^ k * (a * 2 ^ (23 + k - l)) < 2 ^ k * (2 ^ 24 * b) := by
        calc 2 ^ k * (a * 2 ^ (23 + k - l)) = 2 ^ (23 + k - l) * (a * 2 ^ k) := by ring
          _ < 2 ^ (23 + k - l) * (2 ^ (l + 1) * b) := Nat.mul_lt_mul_of_pos_left h2 hS
          _ = 2 ^ (23 + k - l) * 2 ^ (l + 1) * b := by ring
          _ = 2 ^ k * (2 ^ 24 * b) := by rw [hSL]; ring
      exact Nat.lt_of_mul_lt_mul_left h5
  · right
    rw [if_neg hle] at hdef
    have hl : 2 ^ l = 2 ^ 23 * 2 ^ (l - (23 + k)) * 2 ^ k := by
      rw [← pow_add, ← pow_add]
      congr 1
      omega
    have ht : 2 ≤ 2 ^ (l - (23 + k)) := by
      calc 2 = 2 ^ 1 := rfl
        _ ≤ 2 ^ (l - (23 + k)) := Nat.pow_le_pow_right (by decide) (by omega)
    have h5 : 2 ^ k * (2 ^ 23 * (b * 2 ^ (l - (23 + k)))) ≤ 2 ^ k * a := by
      calc 2 ^ k * (2 ^ 23 * (b * 2 ^ (l - (23 + k))))
          = 2 ^ 23 * 2 ^ (l - (23 + k)) * 2 ^ k * b := by ring
        _ = 2 ^ l * b := by rw [← hl]
        _ ≤ a * 2 ^ k := h1
        _ = 2 ^ k * a := by ring
    have h6 := Nat.le_of_mul_le_mul_left h5 hK
    refine ⟨l - (23 + k), hdef, ?_, h6⟩
    have h7 : b * 2 ≤ b * 2 ^ (l - (23 + k)) := Nat.mul_le_mul_left b ht
    omega

theorem float32Div_spec (a b : Nat) (ha : 0 < a) (hb : 0 < b) (hab : a < 2 ^ 24 * b) :
    ∃ s, float32Div a b = (roundHalfEven (a * 2 ^ s) b, 2 ^ s) ∧
      2 ^ 23 * b ≤ a * 2 ^ s ∧ a * 2 ^ s < 2 ^ 24 * b := by
  rcases float32Div_cases a b ha hb with h | ⟨t, -, h24, -⟩
  · exact h
  · omega

theorem float32OfNat_ge (n : Nat) (h : 2 ^ 24 ≤ n) : 2 ^ 24 ≤ float32OfNat n := by
  obtain ⟨h1, h2⟩ := ilog2_spec n (by omega)
  have hl : 24 ≤ ilog2 n := by
    by_contra hc
    have : 2 ^ (ilog2 n + 1) ≤ 2 ^ 24 := Nat.pow_le_pow_right (by decide) (by omega)
    omega
  have hpow : 2 ^ ilog2 n = 2 ^ 23 * 2 ^ (ilog2 n - 23) := by
    rw [← pow_add]
    congr 1
    omega
  have ht : 2 ≤ 2 ^ (ilog2 n - 23) := by
    calc 2 = 2 ^ 1 := rfl
      _ ≤ 2 ^ (ilog2 n - 23) := Nat.pow_le_pow_right (by decide) (by omega)
  have hq : 2 ^ 23 ≤ n / 2 ^ (ilog2 n - 23) := by
    rw [Nat.le_div_iff_mul_le (Nat.two_pow_pos _), ← hpow]
    exact h1
  have hr := (roundHalfEven_bounds n (2 ^ (ilog2 n - 23))).1
  unfold float32OfNat
  simp only
  calc 2 ^ 24 = 2 ^ 23 * 2 := by norm_num
    _ ≤ roundHalfEven n (2 ^ (ilog2 n - 23)) * 2 ^ (ilog2 n - 23) :=
      Nat.mul_le_mul (hq.trans hr) ht

theorem float32Div_ge_one (a b : Nat) (hb : 0 < b) (hab : b ≤ a) :
    (float32Div a b).2 ≤ (float32Div a b).1 := by
  rcases float32Div_cases a b (by omega) hb with ⟨s, hdiv, -, -⟩ | ⟨t, hdiv, -, h23⟩
  · rw [hdiv]
    simp only
    have hq : 2 ^ s ≤ a * 2 ^ s / b := by
      rw [Nat.le_div_iff_mul_le hb, Nat.mul_comm]
      exact Nat.mul_le_mul_right _ hab
    exact hq.trans (roundHalfEven_bounds _ _).1
  · rw [hdiv]
    simp only
    have hpos : 0 < b * 2 ^ t := Nat.mul_pos hb (Nat.two_pow_pos _)
    have hq : 1 ≤ a / (b * 2 ^ t) := by
      rw [Nat.le_div_iff_mul_le hpos]
      omega
    have hr := (roundHalfEven_bounds a (b * 2 ^ t)).1
    exact Nat.mul_pos (by omega) (Nat.two_pow_pos _)

theorem NormalErrRate_eq : NormalErrRate = (10737418, 1073741824) := by decide

theorem errRate_lt_iff (e p : Nat) (hp : 0 < p) (hb : p ≤ 14510024) (he : e < 2 ^ 24) :
    (float32Div e p).1 * 1073741824 < 10737418 * (float32Div e p).2 ↔ 100 * e < p := by
  rcases Nat.eq_zero_or_pos e with h0 | h0
  · subst h0
    simp [float32Div]
    omega
  · obtain ⟨s, hdiv, hlo, hhi⟩ := float32Div_spec e p h0 hp (by omega)
    rw [hdiv]
    simp only
    have hq1 : 2 ^ 23 ≤ e * 2 ^ s / p := (Nat.le_div_iff_mul_le hp).2 hlo
    have hq2 : e * 2 ^ s / p < 2 ^ 24 := (Nat.div_lt_iff_lt_mul hp).2 hhi
    obtain ⟨hm1, hm2⟩ := roundHalfEven_bounds (e * 2 ^ s) p
    rcases Nat.lt_trichotomy s 30 with hs | hs | hs
    · have hX : 2 ^ s ≤ 2 ^ 29 := Nat.pow_le_pow_right (by decide) (by omega)
      have hx : e * 2 ^ s ≤ e * 2 ^ 29 := Nat.mul_le_mul_left e hX
      generalize roundHalfEven (e * 2 ^ s) p = m at hm1 hm2
      generalize e * 2 ^ s / p = q at hq1 hq2 hm1 hm2
      generalize e * 2 ^ s = ex at hlo hhi hx
      generalize 2 ^ s = X at hX
      constructor
      · intro h
        exfalso
        have h1 : m * 1073741824 < 10737418 * 2 ^ 29 := by
          calc m * 1073741824 < 10737418 * X := h
            _ ≤ 10737418 * 2 ^ 29 := Nat.mul_le_mul_left _ hX
        omega
      · intro h
        exfalso
        omega
    · subst hs
      have hc := roundHalfEven_lt_const (e * 2 ^ 30) p hp
      generalize roundHalfEven (e * 2 ^ 30) p = m at hc
      constructor
      · intro h
        have h1 : m < 10737418 := by omega
        have h2 := hc.1 h1
        omega
      · intro h
        have h1 : m < 10737418 := hc.2 (by omega)
        omega
    · have hX : 2 ^ 31 ≤ 2 ^ s := Nat.pow_le_pow_right (by decide) (by omega)
      have hx : e * 2 ^ 31 ≤ e * 2 ^ s := Nat.mul_le_mul_left e hX
      generalize roundHalfEven (e * 2 ^ s) p = m at hm1 hm2
      generalize e * 2 ^ s / p = q at hq1 hq2 hm1 hm2
      generalize e * 2 ^ s = ex at hlo hhi hx
      generalize 2 ^ s = X at hX
      constructor
      · intro _
        omega
      · intro _
        have h1 : 10737418 * 2 ^ 31 ≤ 10737418 * X := Nat.mul_le_mul_left _ hX
        omega

theorem errRate_lt_iff_all (e p : Nat) (hp : 0 < p) (hb : p ≤ 14510024) :
    (float32Div (float32OfNat e) p).1 * 1073741824
        < 10737418 * (float32Div (float32OfNat e) p).2 ↔ 100 * e < p := by
  rcases Nat.lt_or_ge e (2 ^ 24) with he | he
  · rw [float32OfNat_of_lt e he]
    exact errRate_lt_iff e p hp hb he
  · have h1 := float32OfNat_ge e he
    have h2 := float32Div_ge_one (float32OfNat e) p hp (by omega)
    constructor
    · intro h
      exfalso
      have h3 : 10737418 * (float32Div (float32OfNat e) p).2
          ≤ 10737418 * (float32Div (float32OfNat e) p).1 := Nat.mul_le_mul_left _ h2
      omega
    · intro h
      omega

/-- C9, as the code has it: the rate is computed in `float32`.  When
`processed` is positive and at most 14510024, `main` reports the load as
acceptable if and only if `100 * errors < processed`, and as a failed load
otherwise; when `processed` is 0 it reports no verdict. -/
theorem verdict_threshold (result : Statistic) (hp : 0 < result.processed)
    (hb : result.processed ≤ 14510024) :
    (verdict result = some .acceptable ↔ 100 * result.errors < result.processed) ∧
    (verdict result = some .failedLoad ↔ ¬ 100 * result.errors < result.processed) ∧
    (∀ errors, verdict { processed := 0, errors := errors } = none) := by
  obtain ⟨p, e⟩ := result
  simp only at hp hb ⊢
  have hkey := errRate_lt_iff_all e p hp hb
  have hv : verdict { processed := p, errors := e } =
      if (float32Div (float32OfNat e) p).1 * 1073741824
          < 10737418 * (float32Div (float32OfNat e) p).2 then
        some .acceptable
      else some .failedLoad := by
    unfold verdict
    simp only [gt_iff_lt, hp, if_true, float32OfNat_of_lt p (by omega), NormalErrRate_eq]
  refine ⟨?_, ?_, fun errors => by simp [verdict]⟩
  · rw [hv, ← hkey]
    split_ifs with h <;> simp [h]
  · rw [hv, ← hkey]
    split_ifs with h <;> simp [h]

/-- The samples of C9: 5 errors for 1000 processed is acceptable, 50 errors
for 1000 processed is a failed load. -/
theorem verdict_threshold_witness :
    verdict { processed := 1000, errors := 5 } = some .acceptable ∧
      verdict { processed := 1000, errors := 50 } = some .failedLoad :=
  ⟨(verdict_threshold { processed := 1000, errors := 5 } (by decide) (by decide)).1.2
      (by decide),
   (verdict_threshold { processed := 1000, errors := 50 } (by decide) (by decide)).2.1.2
      (by decide)⟩

/-- C9 fails as stated: with `processed = 100000001` and `errors = 1000000`,
`100 * errors < processed` holds but `float32(processed)` is `100000000`, the
quotient is `float32(0.01)`, which is not less than `NormalErrRate`, and the
load is reported as failed.  The same happens with counts that `float32`
represents exactly: `processed = 14600001`, `errors = 146000`. -/
theorem verdict_float32_rounding :
    100 * 1000000 < 100000001 ∧
      verdict { processed := 100000001, errors := 1000000 } = some .failedLoad ∧
      float32OfNat 100000001 = 100000000 ∧
      100 * 146000 < 14600001 ∧
      verdict { processed := 14600001, errors := 146000 } = some .failedLoad := by
  decide

/-! ## Goroutines of `processFile` -/

/-- C7 at a failing input: for the file of two lines (a valid `idfa` line and
an `unknown_type` line) and a store that accepts every write, a schedule in
which every worker drains its queue and reports once returns
`processed = 1, errors = 1`; but in a schedule where the `idfa` worker takes
its exit branch before its queued item, and in one where the `gaid` worker
reports twice, `processFile` returns `processed = 0, errors = 1`: one of the
two non-blank lines is counted nowhere. -/
theorem processFile_loses_count :
    nonBlank sampleFile = 2 ∧
      (run sampleConfig (FileState.init sampleFile) orderlySchedule).bind
          (returned sampleConfig) = some { processed := 1, errors := 1 } ∧
      (run sampleConfig (FileState.init sampleFile) earlyReportSchedule).bind
          (returned sampleConfig) = some { processed := 0, errors := 1 } ∧
      (run sampleConfig (FileState.init sampleFile) doubleReportSchedule).bind
          (returned sampleConfig) = some { processed := 0, errors := 1 } := by
  decide

end MemcLoad
